import Mathlib

/-!
Verification of the abstract instruction container of `src/bytecode/bytecode.py`
(classes `BaseBytecode`, `_BaseBytecodeList`, `_InstrList`, `Bytecode`).

The entry classes (`Instr`, `Label`, `SetLineno`, `TryBegin`, `TryEnd`, the
`UNSET` sentinel) are imported by the source from `bytecode.instr`, a module
that is not part of the sources under review; those carriers are modelled from
the spec (section 3, "DATA MODEL") and are marked as such below.  Everything
about the container itself (equality, legalization, iteration/validation,
construction, copying, flattening) is translated directly from
`bytecode/bytecode.py`.

Method resolution note: `Bytecode` lists `_InstrList` before
`_BaseBytecodeList`, so its `__eq__` is `_InstrList.__eq__` (flattened-entry
comparison only); `BaseBytecode.__eq__` (metadata and stack size) is shadowed
for `Bytecode` values and is reached only by container kinds that are not
instruction lists.  Likewise `__iter__` resolves to `Bytecode.__iter__`, which
layers the try-region nesting check over `_BaseBytecodeList.__iter__`'s
per-entry `_check_instr` (the same pure check run twice, modelled once).
-/

/-- Modelled from the spec: a `Label` (from the missing `bytecode.instr`) is an
opaque identity token with no payload; identity, not content, is the basis of
reference.  The identity is represented by a natural number. -/
structure Label where
  id : Nat
deriving DecidableEq

/-- Modelled from the spec: an instruction's optional source line number, with
an `UNSET` sentinel allowed. -/
inductive Lineno where
  | unset : Lineno
  | ln (n : Int) : Lineno
deriving DecidableEq

/-- Modelled from the spec: an instruction's optional source-location tuple
(line range and column range, all independently nullable). -/
structure Loc where
  lineno : Option Int
  end_lineno : Option Int
  col_offset : Option Int
  end_col_offset : Option Int
deriving DecidableEq

/-- Modelled from the spec: an instruction's optional argument, which may be a
reference to a `Label`, an integer, an opaque value, or absent. -/
inductive Arg where
  | noArg : Arg
  | intArg (n : Int) : Arg
  | labelArg (l : Label) : Arg
  | strArg (s : String) : Arg
deriving DecidableEq

/-- Modelled from the spec: a real instruction (class `Instr` of the missing
`bytecode.instr`): operation name, optional argument, optional line number,
optional source location. -/
structure Instr where
  name : String
  arg : Arg
  lineno : Lineno
  location : Option Loc
deriving DecidableEq

/-- One element of a container's entry sequence.  The first five constructors
are the closed variant family of the spec (`Instr`, `Label`, `SetLineno`,
`TryBegin`, `TryEnd`); `invalid` stands for any other Python object placed in
the sequence, carrying that object's type name, so that the validator's
rejection branch (`Bytecode._check_instr`) is representable.  `TryBegin` and
`TryEnd` are modelled from the spec as carrying a pairing identity. -/
inductive Entry where
  | instr (i : Instr) : Entry
  | label (l : Label) : Entry
  | setLineno (n : Int) : Entry
  | tryBegin (id : Nat) : Entry
  | tryEnd (id : Nat) : Entry
  | invalid (tyName : String) : Entry
deriving DecidableEq

/-- Modelled from the spec: the three-state docstring metadata (unset versus
none versus a string). -/
inductive Docstring where
  | unset : Docstring
  | noneDoc : Docstring
  | doc (s : String) : Docstring
deriving DecidableEq

/-- The scalar fields of the function metadata block (`BaseBytecode.__init__`):
argument counts, flags, first line number, name, file name, docstring. -/
structure ScalarMeta where
  argcount : Nat
  posonlyargcount : Nat
  kwonlyargcount : Nat
  flags : Nat
  first_lineno : Int
  name : String
  filename : String
  docstring : Docstring
deriving DecidableEq

/-- The full function metadata block of `BaseBytecode`: the scalar fields plus
the cell-variable and free-variable name lists. -/
structure BaseMeta extends ScalarMeta where
  cellvars : List String
  freevars : List String
deriving DecidableEq

/-- Default metadata installed by `BaseBytecode.__init__`. -/
def defaultMeta : BaseMeta :=
  { argcount := 0, posonlyargcount := 0, kwonlyargcount := 0, flags := 0,
    first_lineno := 1, name := "<module>", filename := "<string>",
    docstring := .unset, cellvars := [], freevars := [] }

/-- The concrete symbolic container (class `Bytecode`): a metadata block, the
positional-argument-name list (`argnames`), and the ordered entry sequence. -/
structure Bytecode where
  meta : BaseMeta
  argnames : List String
  entries : List Entry
deriving DecidableEq

/-- Errors raised during container traversal: `valueError ty` is the
`_check_instr` rejection naming the offending type, `nestingError pos` is the
`RuntimeError` raised by `Bytecode.__iter__` when a `TryBegin` is met at
position `pos` while a region is already open. -/
inductive IterErr where
  | valueError (tyName : String) : IterErr
  | nestingError (pos : Nat) : IterErr
deriving DecidableEq

deriving instance DecidableEq for Except

/-- Whether an `Except` value is a success. -/
def exOk {ε α : Type} : Except ε α → Bool
  | .ok _ => true
  | .error _ => false

/-- Translation of `Bytecode._check_instr`: reject any element that is not one
of the five entry variants. -/
def checkInstr (e : Entry) : Except IterErr Unit :=
  match e with
  | .invalid ty => .error (.valueError ty)
  | _ => .ok ()

/-- Entry-variant discriminators used in statements. -/
def isInvalid : Entry → Bool
  | .invalid _ => true
  | _ => false

def isSetLineno : Entry → Bool
  | .setLineno _ => true
  | _ => false

def isTryBegin : Entry → Bool
  | .tryBegin _ => true
  | _ => false

/-- Translation of `Bytecode.__iter__` (which also subsumes
`_BaseBytecodeList.__iter__`'s per-entry check): walk the raw entry list
carrying the "exception region currently open" flag `seen`; reject invalid
entries, reject a `TryBegin` while a region is open, clear the flag on any
`TryEnd`, and otherwise yield entries unchanged.  `pos` is the index of the
next entry, so an error reports where iteration failed. -/
def iterGo : List Entry → Nat → Bool → Except IterErr (List Entry)
  | [], _, _ => .ok []
  | e :: r, pos, seen =>
    match e with
    | .invalid ty => .error (.valueError ty)
    | .tryBegin _ =>
      if seen then .error (.nestingError pos)
      else (iterGo r (pos + 1) true).map (fun l => e :: l)
    | .tryEnd _ => (iterGo r (pos + 1) false).map (fun l => e :: l)
    | _ => (iterGo r (pos + 1) seen).map (fun l => e :: l)

/-- Iterating a container: `iter(bytecode)` over its entry sequence. -/
def iterBytecode (bc : Bytecode) : Except IterErr (List Entry) :=
  iterGo bc.entries 0 false

/-- Translation of `Bytecode.__init__`: check every provided entry with
`_check_instr` (in order, raising on the first invalid one), then build the
container with default metadata, empty `argnames`, and the given entries. -/
def checkAll : List Entry → Except IterErr Unit
  | [] => .ok ()
  | e :: r => do
    checkInstr e
    checkAll r

def bytecodeInit (instructions : List Entry) : Except IterErr Bytecode := do
  checkAll instructions
  .ok { meta := defaultMeta, argnames := [], entries := instructions }

/-- One item of the flattened (comparison-normal) form produced by
`_InstrList._flat`: either the placeholder string `"label_instr%s" % index`
emitted for a `Label` entry (represented by its index), or a `ConcreteInstr`
built for a label-referencing instruction (name, resolved integer offset,
source location), or any other entry emitted as-is. -/
inductive FlatItem where
  | labelStr (index : Nat) : FlatItem
  | concrete (name : String) (arg : Nat) (location : Option Loc) : FlatItem
  | entry (e : Entry) : FlatItem
deriving DecidableEq

/-- First-pass output of `_flat`: finished items, and pending jumps whose
`Label` argument is resolved by the second pass. -/
inductive Pre where
  | done (f : FlatItem) : Pre
  | jump (target : Label) (name : String) (location : Option Loc) : Pre
deriving DecidableEq

/-- Error raised by `_flat`'s second pass: the `KeyError` of
`labels[target_label]` when a referenced label never appeared as an entry. -/
inductive FlatErr where
  | keyError (l : Label) : FlatErr
deriving DecidableEq

/-- First pass of `_InstrList._flat`: walk the entries with the running
enumeration index and the running non-label count `offset`; a `Label` entry
emits its placeholder and records `(label, offset)` in the label dictionary
(new bindings shadow older ones, as Python dict assignment does); an `Instr`
whose argument is a `Label` emits a pending jump; everything else is emitted
as-is and counted.  Returns the emitted sequence and the final dictionary. -/
def flatGo : List Entry → Nat → Nat → List (Label × Nat) →
    List Pre × List (Label × Nat)
  | [], _, _, labels => ([], labels)
  | e :: rest, index, offset, labels =>
    match e with
    | .label l =>
      let (ps, labs) := flatGo rest (index + 1) offset ((l, offset) :: labels)
      (.done (.labelStr index) :: ps, labs)
    | .instr i =>
      match i.arg with
      | .labelArg t =>
        let (ps, labs) := flatGo rest (index + 1) (offset + 1) labels
        (.jump t i.name i.location :: ps, labs)
      | _ =>
        let (ps, labs) := flatGo rest (index + 1) (offset + 1) labels
        (.done (.entry e) :: ps, labs)
    | _ =>
      let (ps, labs) := flatGo rest (index + 1) (offset + 1) labels
      (.done (.entry e) :: ps, labs)

/-- Lookup in the label dictionary.  The dictionary is keyed by label identity;
bindings pushed later sit nearer the front, so the first hit is the most
recent assignment, matching Python dict overwrite semantics. -/
def lookupL : List (Label × Nat) → Label → Option Nat
  | [], _ => none
  | (k, v) :: r, l => if l = k then some v else lookupL r l

/-- Second pass of `_InstrList._flat`: resolve each pending jump through the
label dictionary, raising the `KeyError` when the target is absent. -/
def resolveJumps (labels : List (Label × Nat)) :
    List Pre → Except FlatErr (List FlatItem)
  | [] => .ok []
  | .done f :: r => (resolveJumps labels r).map (fun l => f :: l)
  | .jump t nm loc :: r =>
    match lookupL labels t with
    | none => .error (.keyError t)
    | some off => (resolveJumps labels r).map (fun l => .concrete nm off loc :: l)

/-- The two passes of `_InstrList._flat` applied to the entries its iteration
yields.  `_flat` walks `enumerate(self)`: on a plain `_InstrList` (such as the
`_InstrList(other)` a non-list operand is coerced to in `__eq__`) that is raw
list iteration and this function is the whole story; on a `Bytecode`, the
iteration is the validating `Bytecode.__iter__` — that case is `flatB`
below. -/
def flat (es : List Entry) : Except FlatErr (List FlatItem) :=
  let (ps, labels) := flatGo es 0 0 []
  resolveJumps labels ps

/-- `_InstrList.__eq__` between plain instruction lists: flatten the left
operand, then the right one, and compare the flattened sequences; a `KeyError`
raised by either flattening propagates.  (Between `Bytecode` operands the
flattening additionally validates — see `bytecodeEq`.) -/
def instrListEq (a b : List Entry) : Except FlatErr Bool := do
  let x ← flat a
  let y ← flat b
  .ok (x == y)

/-- What `Bytecode == ...` can raise: the `ValueError` of `_check_instr`, the
`RuntimeError` of a nested `TryBegin` (both raised by `Bytecode.__iter__`
while `_flat` consumes the entries), or the `KeyError` of the second pass'
label lookup. -/
inductive EqErr where
  | valueError (tyName : String) : EqErr
  | nestingError (pos : Nat) : EqErr
  | keyError (l : Label) : EqErr
deriving DecidableEq

def toEqErr : IterErr → EqErr
  | .valueError t => .valueError t
  | .nestingError p => .nestingError p

def toEqErrF : FlatErr → EqErr
  | .keyError l => .keyError l

/-- `_flat` when `self` is a `Bytecode`: `enumerate(self)` drives
`Bytecode.__iter__`, so each entry passes `_check_instr` and the try-region
nesting check as the first pass consumes it (a `ValueError` or `RuntimeError`
aborts the flattening there); the `KeyError` of the second pass can only
follow a fully validated walk. -/
def flatB (es : List Entry) : Except EqErr (List FlatItem) :=
  match iterGo es 0 false with
  | .error e => .error (toEqErr e)
  | .ok l =>
    match flat l with
    | .error e => .error (toEqErrF e)
    | .ok out => .ok out

/-- Equality of two `Bytecode` containers.  By method resolution order the
concrete class `Bytecode` inherits `__eq__` from `_InstrList`, so only the
flattened entry sequences are compared (`BaseBytecode.__eq__` is shadowed);
both operands are `Bytecode`s, so both flattenings run the validating
iteration. -/
def bytecodeEq (a b : Bytecode) : Except EqErr Bool := do
  let x ← flatB a.entries
  let y ← flatB b.entries
  .ok (x == y)

/-- Translation of `_BaseBytecodeList.legalize`'s walk.  `enumerate(self)`
iterates through `Bytecode.__iter__`, so before the legalize body sees an
entry it has passed `_check_instr` and the try-region nesting check; those
generator-side checks are interleaved here exactly as the generator interleaves
them with the loop body.  State: `pos` the enumeration index, `sl` the
`set_lineno` value (None until a `SetLineno` is seen), `cur` the
`current_lineno`, `seen` the generator's `seen_try_begin` flag.  Returns the
entry list as mutated so far, the recorded `lineno_pos` positions, and the
error, if any, that stopped the walk. -/
def legalizeGo : List Entry → Nat → Option Int → Int → Bool →
    List Entry × List Nat × Option IterErr
  | [], _, _, _, _ => ([], [], none)
  | e :: rest, pos, sl, cur, seen =>
    match e with
    | .invalid ty => (e :: rest, [], some (.valueError ty))
    | .tryBegin _ =>
      if seen then (e :: rest, [], some (.nestingError pos))
      else
        let (r, ps, err) := legalizeGo rest (pos + 1) sl cur true
        (e :: r, ps, err)
    | .tryEnd _ =>
      let (r, ps, err) := legalizeGo rest (pos + 1) sl cur false
      (e :: r, ps, err)
    | .setLineno n =>
      let (r, ps, err) := legalizeGo rest (pos + 1) (some n) cur seen
      (e :: r, pos :: ps, err)
    | .label _ =>
      let (r, ps, err) := legalizeGo rest (pos + 1) sl cur seen
      (e :: r, ps, err)
    | .instr i =>
      match sl with
      | some n =>
        let (r, ps, err) := legalizeGo rest (pos + 1) sl cur seen
        (.instr { i with lineno := .ln n } :: r, ps, err)
      | none =>
        match i.lineno with
        | .unset =>
          let (r, ps, err) := legalizeGo rest (pos + 1) none cur seen
          (.instr { i with lineno := .ln cur } :: r, ps, err)
        | .ln m =>
          let (r, ps, err) := legalizeGo rest (pos + 1) none m seen
          (e :: r, ps, err)

/-- The deletion loop closing `legalize`: `for i in reversed(lineno_pos): del
self[i]` — delete the recorded positions from last to first. -/
def deleteIdxs (l : List Entry) (ps : List Nat) : List Entry :=
  ps.reverse.foldl (fun acc i => acc.eraseIdx i) l

/-- `_BaseBytecodeList.legalize` on a container.  On success the recorded
`SetLineno` positions are deleted; when the traversal raises, the exception
propagates before the deletion loop runs, leaving the container with the entry
list exactly as the interrupted walk left it (line numbers rewritten up to the
failure point, no marker deleted). -/
def legalize (bc : Bytecode) : Except (IterErr × Bytecode) Bytecode :=
  match legalizeGo bc.entries 0 none bc.meta.first_lineno false with
  | (es, _, some err) => .error (err, { bc with entries := es })
  | (es, ps, none) => .ok { bc with entries := deleteIdxs es ps }

/-- Renaming of label identities (spec section 8: "renaming every Label to a
fresh identity, preserving positions and reference structure"): apply `f` to
every `Label` entry and every `Label`-valued instruction argument. -/
def renameEntry (f : Label → Label) : Entry → Entry
  | .label l => .label (f l)
  | .instr i =>
    .instr { i with arg := match i.arg with
                           | .labelArg t => .labelArg (f t)
                           | a => a }
  | e => e

/-- Translation of `BaseBytecode.__eq__` after its `type(self) != type(other)`
guard: sequential comparison of every metadata field, then of the
externally-computed stack sizes (`compute_stacksize` is delegated to the
control-flow collaborator, here an integer supplied by the caller). -/
def baseMetaEq (m m2 : BaseMeta) (stack stack2 : Int) : Bool :=
  if m.argcount ≠ m2.argcount then false
  else if m.posonlyargcount ≠ m2.posonlyargcount then false
  else if m.kwonlyargcount ≠ m2.kwonlyargcount then false
  else if m.flags ≠ m2.flags then false
  else if m.first_lineno ≠ m2.first_lineno then false
  else if m.filename ≠ m2.filename then false
  else if m.name ≠ m2.name then false
  else if m.docstring ≠ m2.docstring then false
  else if m.cellvars ≠ m2.cellvars then false
  else if m.freevars ≠ m2.freevars then false
  else if stack ≠ stack2 then false
  else true

/-- A container value as seen by the equality operator.  `bc` is the concrete
`Bytecode` of the source.  `other` is modelled from the spec: a container of
another concrete kind (the linear-encoding and control-flow-graph containers
live outside the sources under review); such kinds are `_BaseBytecodeList`s
but not `_InstrList`s, so their equality is the metadata-comparing
`BaseBytecode.__eq__`, and their externally-computed stack size is carried as
a field.  `kind` names the concrete Python type. -/
inductive AnyBytecode where
  | bc (b : Bytecode) : AnyBytecode
  | other (kind : String) (meta : BaseMeta) (entries : List Entry)
      (stacksize : Int) : AnyBytecode

/-- Python's `a == b` between container values.  A `Bytecode` on the left uses
`_InstrList.__eq__` — no kind check at all: a `Bytecode` right operand is
already an `_InstrList`, so both sides flatten through the validating
`Bytecode.__iter__`; any other right operand is first converted with
`_InstrList(other)` (its entries, iterated as a plain list, hence flattened
without validation) while the left, `Bytecode`, side still validates.  A
container of another kind on the left uses `BaseBytecode.__eq__`: a `type`
mismatch yields `False` before anything else; for a same-kind right operand
the metadata and stack sizes are compared, then (modelled from the spec, which
requires an identical linearized sequence as well) the flattened entries. -/
def pyEq : AnyBytecode → AnyBytecode → Except EqErr Bool
  | .bc a, .bc b => bytecodeEq a b
  | .bc a, .other _ _ es _ => do
    let x ← flatB a.entries
    match flat es with
    | .error e => .error (toEqErrF e)
    | .ok y => .ok (x == y)
  | .other _ _ _ _, .bc _ => .ok false
  | .other k m es s, .other k2 m2 es2 s2 =>
    if k ≠ k2 then .ok false
    else if baseMetaEq m m2 s s2 = false then .ok false
    else
      match instrListEq es es2 with
      | .error e => .error (toEqErrF e)
      | .ok r => .ok r

/-- The entry model of the aliasing (heap) refinement used to examine copy
independence: instructions are mutable Python objects, so a container's entry
holds a reference into an instruction store rather than an instruction value;
the other variants are immutable. -/
inductive SEntry where
  | instr (ref : Nat) : SEntry
  | label (l : Label) : SEntry
  | setLineno (n : Int) : SEntry
  | tryBegin (id : Nat) : SEntry
  | tryEnd (id : Nat) : SEntry
  | invalid (tyName : String) : SEntry
deriving DecidableEq

/-- The `Bytecode` container in the aliasing refinement: the Python lists held
by metadata (`cellvars`, `freevars`, `argnames`) are mutable too, so the
container holds references into a string-list store. -/
structure SBytecode where
  scalar : ScalarMeta
  cellvarsRef : Nat
  freevarsRef : Nat
  argnamesRef : Nat
  entries : List SEntry
deriving DecidableEq

/-- A placeholder instruction; dereferencing never reaches it in well-formed
states (refs are store-valid). -/
def defaultInstr : Instr :=
  { name := "", arg := .noArg, lineno := .unset, location := none }

/-- Dereference one stored entry through the instruction store. -/
def derefEntry (instrStore : List Instr) : SEntry → Entry
  | .instr r => .instr (instrStore.getD r defaultInstr)
  | .label l => .label l
  | .setLineno n => .setLineno n
  | .tryBegin id => .tryBegin id
  | .tryEnd id => .tryEnd id
  | .invalid ty => .invalid ty

/-- The value-level container a store-level container denotes: every reference
is read through the stores. -/
def viewS (instrStore : List Instr) (strStore : List (List String))
    (b : SBytecode) : Bytecode :=
  { meta := { toScalarMeta := b.scalar,
              cellvars := strStore.getD b.cellvarsRef [],
              freevars := strStore.getD b.freevarsRef [] },
    argnames := strStore.getD b.argnamesRef [],
    entries := b.entries.map (derefEntry instrStore) }

/-- `_check_instr` on a stored entry. -/
def checkAllS : List SEntry → Except IterErr Unit
  | [] => .ok ()
  | .invalid ty :: _ => .error (.valueError ty)
  | _ :: r => checkAllS r

/-- Translation of `_BaseBytecodeList.copy` combined with
`Bytecode._copy_attr_from` in the aliasing refinement.  `type(self)(
super().copy())` re-validates the (shallowly copied) entry list through
`Bytecode.__init__`; `_copy_attr_from` copies every scalar field by value,
rebuilds `cellvars` and `freevars` with `list(...)` (fresh store cells holding
the same contents), and assigns `argnames` by reference (`self.argnames =
bytecode.argnames` — the same Python list).  The entry list is a new list
whose elements are the same references. -/
def copyS (strStore : List (List String)) (b : SBytecode) :
    Except IterErr (List (List String) × SBytecode) := do
  checkAllS b.entries
  .ok (strStore ++ [strStore.getD b.cellvarsRef [], strStore.getD b.freevarsRef []],
       { scalar := b.scalar,
         cellvarsRef := strStore.length,
         freevarsRef := strStore.length + 1,
         argnamesRef := b.argnamesRef,
         entries := b.entries })

/-- In-place mutation of an instruction object: rewrite the line number of the
instruction a reference designates. -/
def setInstrLineno (instrStore : List Instr) (r : Nat) (v : Lineno) :
    List Instr :=
  match instrStore.get? r with
  | none => instrStore
  | some i => instrStore.set r { i with lineno := v }

/-- Definition following the spec's words for the validator ("Tracks one
boolean: exception region currently open ... On ExceptionRegionEnd, clears the
open flag unconditionally"): how one entry transforms the open-region state. -/
def specOpenStep (s : Bool) (e : Entry) : Bool :=
  match e with
  | .tryBegin _ => true
  | .tryEnd _ => false
  | _ => s

/-- The open-region state after a stream has been consumed, starting closed. -/
def specOpenAfter (l : List Entry) : Bool :=
  l.foldl specOpenStep false


/-! Concrete containers used by the theorems below. -/

/-- An empty container with the default metadata. -/
def c1A : Bytecode := { meta := defaultMeta, argnames := [], entries := [] }

/-- An empty container whose `first_lineno` metadata differs from `c1A`. -/
def c1B : Bytecode :=
  { meta := { defaultMeta with first_lineno := 2 }, argnames := [], entries := [] }

/-- The marker-collapse input of spec section 8. -/
def c3Input : Bytecode :=
  { meta := defaultMeta, argnames := [],
    entries := [.setLineno 5,
                .instr { name := "A", arg := .noArg, lineno := .unset, location := none },
                .setLineno 9,
                .instr { name := "B", arg := .noArg, lineno := .unset, location := none },
                .instr { name := "C", arg := .noArg, lineno := .unset, location := none }] }

/-- The expected marker-collapse output. -/
def c3Expected : Bytecode :=
  { meta := defaultMeta, argnames := [],
    entries := [.instr { name := "A", arg := .noArg, lineno := .ln 5, location := none },
                .instr { name := "B", arg := .noArg, lineno := .ln 9, location := none },
                .instr { name := "C", arg := .noArg, lineno := .ln 9, location := none }] }

/-! Reduction lemmas for the `Except` monad and construction-time checking. -/

theorem exBindOk {ε α β : Type} (x : α) (f : α → Except ε β) :
    (Except.ok (ε := ε) x >>= f) = f x := rfl

theorem exBindErr {ε α β : Type} (e : ε) (f : α → Except ε β) :
    (Except.error (α := α) e >>= f) = .error e := rfl

theorem checkAll_error_of_invalid (es : List Entry) (t : String)
    (h : Entry.invalid t ∈ es) : exOk (checkAll es) = false := by
  induction es with
  | nil => cases h
  | cons e r ih =>
    rcases List.mem_cons.mp h with he | hr
    · subst he
      rfl
    · cases e with
      | invalid ty => rfl
      | instr i => simpa [checkAll, checkInstr, Except.bind] using ih hr
      | label l => simpa [checkAll, checkInstr, Except.bind] using ih hr
      | setLineno n => simpa [checkAll, checkInstr, Except.bind] using ih hr
      | tryBegin id => simpa [checkAll, checkInstr, Except.bind] using ih hr
      | tryEnd id => simpa [checkAll, checkInstr, Except.bind] using ih hr

theorem checkAll_ok_of_valid (es : List Entry)
    (h : ∀ e ∈ es, isInvalid e = false) : checkAll es = .ok () := by
  induction es with
  | nil => rfl
  | cons e r ih =>
    have he := h e (List.mem_cons_self e r)
    have hr := ih fun x hx => h x (List.mem_cons_of_mem e hx)
    cases e with
    | invalid ty => simp [isInvalid] at he
    | instr i => simpa [checkAll, checkInstr, Except.bind] using hr
    | label l => simpa [checkAll, checkInstr, Except.bind] using hr
    | setLineno n => simpa [checkAll, checkInstr, Except.bind] using hr
    | tryBegin id => simpa [checkAll, checkInstr, Except.bind] using hr
    | tryEnd id => simpa [checkAll, checkInstr, Except.bind] using hr

/-- C1 counterexample: two containers of the same concrete kind (`Bytecode`)
with identical (empty) entry sequences but different `first_lineno` metadata
compare equal, so equality does not require identical metadata. -/
theorem c1_counterexample :
    bytecodeEq c1A c1B = .ok true ∧ c1A.meta.first_lineno ≠ c1B.meta.first_lineno := by
  decide

/-- C1 (amended): for the concrete container kind, the equality operator is
`_InstrList.__eq__` (the metadata-comparing base equality is shadowed by the
method resolution order), so two containers with the same entry sequence
compare equal whenever the validated flattening succeeds (the entries pass the
traversal checks and every label resolves), whatever their metadata, argument
names, or externally computed stack sizes. -/
theorem c1_metadata_not_compared (a b : Bytecode) (l : List FlatItem)
    (h1 : a.entries = b.entries) (h2 : flatB a.entries = .ok l) :
    bytecodeEq a b = .ok true := by
  have h2b : flatB b.entries = .ok l := h1 ▸ h2
  unfold bytecodeEq
  rw [h2, h2b]
  show Except.ok (l == l) = Except.ok true
  simp

/-- C1 witness: the amended theorem applied to the metadata-differing pair. -/
theorem c1_witness : bytecodeEq c1A c1B = .ok true :=
  c1_metadata_not_compared c1A c1B [] rfl rfl

/-- C3: on the container with first-line metadata 1 and entries
`[LineMarker 5, A (line unset), LineMarker 9, B (line unset), C (line unset)]`,
`legalize` yields exactly `[A at line 5, B at line 9, C at line 9]`, with zero
line markers remaining. -/
theorem c3_marker_collapse :
    legalize c3Input = .ok c3Expected
    ∧ c3Expected.entries.filter (fun e => isSetLineno e) = [] := by
  decide

/-- C8 counterexample: a sequence opening a second exception region before the
first is closed does NOT make the constructor raise — construction succeeds,
contrary to the claim. -/
theorem c8_counterexample :
    bytecodeInit [.tryBegin 0, .tryBegin 1]
      = .ok { meta := defaultMeta, argnames := [],
              entries := [.tryBegin 0, .tryBegin 1] } := by
  decide

/-- C8 (amended): construction applies the entry-variant check (`_check_instr`)
to every entry eagerly, raising on a sequence holding a non-entry element
before the container is built, and otherwise succeeds with default metadata;
it does not check exception-region nesting — opening a second region before
the first closes is only rejected on a later traversal. -/
theorem c8_eager_variant_check (es : List Entry) (t : String) :
    (Entry.invalid t ∈ es → exOk (bytecodeInit es) = false)
    ∧ ((∀ e ∈ es, isInvalid e = false) →
        bytecodeInit es = .ok { meta := defaultMeta, argnames := [], entries := es })
    ∧ (∀ a b : Nat,
        exOk (iterBytecode { meta := defaultMeta, argnames := [],
                             entries := [.tryBegin a, .tryBegin b] }) = false) := by
  refine ⟨fun h => ?_, fun h => ?_, fun a b => rfl⟩
  · have hx := checkAll_error_of_invalid es t h
    cases hc : checkAll es with
    | ok u => rw [hc] at hx; simp [exOk] at hx
    | error err =>
      unfold bytecodeInit
      rw [hc]
      rfl
  · have hc := checkAll_ok_of_valid es h
    unfold bytecodeInit
    rw [hc]
    rfl

/-- C8 witness: the amended theorem at concrete inputs — a non-entry element
makes construction fail, a valid sequence constructs with default metadata,
and the deferred nesting rejection fires on traversal. -/
theorem c8_witness :
    exOk (bytecodeInit [.invalid "int"]) = false
    ∧ bytecodeInit [.tryBegin 3]
        = .ok { meta := defaultMeta, argnames := [], entries := [.tryBegin 3] }
    ∧ exOk (iterBytecode { meta := defaultMeta, argnames := [],
                           entries := [.tryBegin 1, .tryBegin 2] }) = false :=
  ⟨(c8_eager_variant_check [.invalid "int"] "int").1 (by simp),
   (c8_eager_variant_check [.tryBegin 3] "int").2.1 (by decide),
   (c8_eager_variant_check [] "int").2.2 1 2⟩

/-- C10 counterexample: comparing the empty `Bytecode` with an empty container
of a different concrete kind returns `True`, not `False` — the instruction-
list equality used by `Bytecode` performs no kind check. -/
theorem c10_counterexample :
    pyEq (.bc c1A) (.other "ConcreteBytecode" defaultMeta [] 0) = .ok true := by
  decide

/-- C10 (amended): equality through the metadata-comparing base implementation
(used by every container kind that is not an instruction list) returns false
for a different-kind operand and never raises; but a `Bytecode` on the left
ignores kinds entirely: when its own (validated) flattening and the coerced
operand's flattening both succeed it returns the comparison of the flattened
sequences — which can be true across kinds — and when its own entries fail the
traversal checks it raises that error instead of returning false. -/
theorem c10_cross_kind (k k2 : String) (m m2 : BaseMeta) (es es2 : List Entry)
    (s s2 : Int) (b : Bytecode) (h : k ≠ k2) :
    pyEq (.other k m es s) (.bc b) = .ok false
    ∧ pyEq (.other k m es s) (.other k2 m2 es2 s2) = .ok false
    ∧ (∀ out out2, flatB b.entries = .ok out → flat es = .ok out2 →
        pyEq (.bc b) (.other k m es s) = .ok (out == out2))
    ∧ (∀ e, iterGo b.entries 0 false = .error e →
        pyEq (.bc b) (.other k m es s) = .error (toEqErr e)) := by
  refine ⟨rfl, by simp [pyEq, h], ?_, ?_⟩
  · intro out out2 hb he
    show (do
        let x ← flatB b.entries
        match flat es with
        | .error e => Except.error (toEqErrF e)
        | .ok y => Except.ok (x == y)) = Except.ok (out == out2)
    rw [hb, he]
    rfl
  · intro e he
    have hb : flatB b.entries = .error (toEqErr e) := by
      unfold flatB
      rw [he]
    show (do
        let x ← flatB b.entries
        match flat es with
        | .error e2 => Except.error (toEqErrF e2)
        | .ok y => Except.ok (x == y)) = Except.error (toEqErr e)
    rw [hb]
    rfl

/-- C10 witness: the cross-kind comparisons at concrete containers — the base
equality rejects both ways, an empty `Bytecode` compares equal to an empty
container of another kind, and a `Bytecode` with ill-nested regions raises
out of the comparison instead of returning false. -/
theorem c10_witness :
    pyEq (.other "ConcreteBytecode" defaultMeta [] 0) (.bc c1A) = .ok false
    ∧ pyEq (.other "ConcreteBytecode" defaultMeta [] 0)
        (.other "ControlFlowGraph" defaultMeta [] 0) = .ok false
    ∧ pyEq (.bc c1A) (.other "ConcreteBytecode" defaultMeta [] 0) = .ok true
    ∧ pyEq (.bc { meta := defaultMeta, argnames := [],
                  entries := [.tryBegin 1, .tryBegin 2] })
        (.other "ConcreteBytecode" defaultMeta [] 0)
        = .error (.nestingError 1) := by
  have T := c10_cross_kind "ConcreteBytecode" "ControlFlowGraph" defaultMeta
    defaultMeta [] [] 0 0 c1A (by decide)
  have T2 := c10_cross_kind "ConcreteBytecode" "ControlFlowGraph" defaultMeta
    defaultMeta [] [] 0 0
    { meta := defaultMeta, argnames := [], entries := [.tryBegin 1, .tryBegin 2] }
    (by decide)
  refine ⟨T.1, T.2.1, ?_, ?_⟩
  · simpa using T.2.2.1 [] [] rfl rfl
  · simpa using T2.2.2.2 (.nestingError 1) rfl

/-! Characterization of the stream validator (C4). -/

theorem exOk_map {ε α β : Type} (f : α → β) (x : Except ε α) :
    exOk (x.map f) = exOk x := by
  cases x <;> rfl

theorem forall_lt_succ_iff {n : Nat} {P : Nat → Prop} :
    (∀ i < n + 1, P i) ↔ P 0 ∧ ∀ i < n, P (i + 1) := by
  constructor
  · intro h
    exact ⟨h 0 (Nat.succ_pos n), fun i hi => h (i + 1) (Nat.succ_lt_succ hi)⟩
  · rintro ⟨h0, h⟩ i hi
    cases i with
    | zero => exact h0
    | succ j => exact h j (Nat.lt_of_succ_lt_succ hi)

/-- The traversal succeeds from state `seen` exactly when no `TryBegin` is met
while the spec-side open flag (seeded with `seen`) is set. -/
theorem iterGo_ok_iff (es : List Entry) (pos : Nat) (seen : Bool)
    (hInv : ∀ e ∈ es, isInvalid e = false) :
    exOk (iterGo es pos seen) = true ↔
      ∀ i < es.length, isTryBegin (es.getD i (.tryEnd 0)) = true →
        (es.take i).foldl specOpenStep seen = false := by
  induction es generalizing pos seen with
  | nil => simp [iterGo, exOk]
  | cons e r ih =>
    have hInvR : ∀ x ∈ r, isInvalid x = false :=
      fun x hx => hInv x (List.mem_cons_of_mem e hx)
    have split :
        (∀ i < (e :: r).length, isTryBegin ((e :: r).getD i (.tryEnd 0)) = true →
            ((e :: r).take i).foldl specOpenStep seen = false) ↔
          (isTryBegin e = true → seen = false)
          ∧ (∀ i < r.length, isTryBegin (r.getD i (.tryEnd 0)) = true →
              (r.take i).foldl specOpenStep (specOpenStep seen e) = false) := by
      rw [List.length_cons, forall_lt_succ_iff]
      constructor
      · rintro ⟨h0, h⟩
        refine ⟨fun hb => ?_, fun i hi hb => ?_⟩
        · simpa [List.take_zero] using h0 hb
        · simpa [List.take_succ_cons, List.foldl_cons] using h i hi hb
      · rintro ⟨h0, h⟩
        refine ⟨fun hb => by simpa [List.take_zero] using h0 hb,
                fun i hi hb => ?_⟩
        simpa [List.take_succ_cons, List.foldl_cons] using h i hi hb
    rw [split]
    cases e with
    | invalid ty => simpa [isInvalid] using hInv (.invalid ty) (List.mem_cons_self _ _)
    | tryBegin k =>
      cases seen with
      | true => simp [iterGo, exOk, isTryBegin]
      | false =>
        rw [show iterGo (Entry.tryBegin k :: r) pos false
              = (iterGo r (pos + 1) true).map (fun l => Entry.tryBegin k :: l) from rfl]
        rw [exOk_map]
        simpa [isTryBegin, specOpenStep] using ih (pos + 1) true hInvR
    | tryEnd k =>
      rw [show iterGo (Entry.tryEnd k :: r) pos seen
            = (iterGo r (pos + 1) false).map (fun l => Entry.tryEnd k :: l) from rfl]
      rw [exOk_map]
      simpa [isTryBegin, specOpenStep] using ih (pos + 1) false hInvR
    | label l =>
      rw [show iterGo (Entry.label l :: r) pos seen
            = (iterGo r (pos + 1) seen).map (fun x => Entry.label l :: x) from rfl]
      rw [exOk_map]
      simpa [isTryBegin, specOpenStep] using ih (pos + 1) seen hInvR
    | setLineno n =>
      rw [show iterGo (Entry.setLineno n :: r) pos seen
            = (iterGo r (pos + 1) seen).map (fun x => Entry.setLineno n :: x) from rfl]
      rw [exOk_map]
      simpa [isTryBegin, specOpenStep] using ih (pos + 1) seen hInvR
    | instr i =>
      rw [show iterGo (Entry.instr i :: r) pos seen
            = (iterGo r (pos + 1) seen).map (fun x => Entry.instr i :: x) from rfl]
      rw [exOk_map]
      simpa [isTryBegin, specOpenStep] using ih (pos + 1) seen hInvR

/-- C4: traversal raises the nesting violation exactly when an
`ExceptionRegionBegin` is encountered while a region is already open, an
`ExceptionRegionEnd` clearing the open state unconditionally: the stream
`[Begin, Begin, End, End]` fails on the second `Begin` (position 1), the
stream `[Begin, End, Begin, End]` iterates cleanly, an `End` with no
preceding `Begin` is accepted, and in general (for streams of well-formed
entries) iteration succeeds iff every `TryBegin` occurs at a point where the
spec-side open-region state is clear. -/
theorem c4_nesting_validator :
    iterBytecode
        { meta := defaultMeta, argnames := [],
          entries := [.tryBegin 0, .tryBegin 1, .tryEnd 0, .tryEnd 1] }
      = .error (.nestingError 1)
    ∧ iterBytecode
        { meta := defaultMeta, argnames := [],
          entries := [.tryBegin 0, .tryEnd 0, .tryBegin 1, .tryEnd 1] }
      = .ok [.tryBegin 0, .tryEnd 0, .tryBegin 1, .tryEnd 1]
    ∧ iterBytecode { meta := defaultMeta, argnames := [], entries := [.tryEnd 7] }
      = .ok [.tryEnd 7]
    ∧ ∀ bc : Bytecode, (∀ e ∈ bc.entries, isInvalid e = false) →
        (exOk (iterBytecode bc) = true ↔
          ∀ i < bc.entries.length,
            isTryBegin (bc.entries.getD i (.tryEnd 0)) = true →
              specOpenAfter (bc.entries.take i) = false) := by
  refine ⟨by decide, by decide, by decide, fun bc h => ?_⟩
  simpa [specOpenAfter] using iterGo_ok_iff bc.entries 0 false h

/-- C4 witness: the general characterization applied to a concrete stream
(an unmatched `End` followed by a balanced `Begin`/`End` pair). -/
theorem c4_witness :
    exOk (iterBytecode { meta := defaultMeta, argnames := [],
                         entries := [.tryEnd 1, .tryBegin 2, .tryEnd 2] }) = true :=
  (c4_nesting_validator.2.2.2
      { meta := defaultMeta, argnames := [],
        entries := [.tryEnd 1, .tryBegin 2, .tryEnd 2] }
      (by decide)).mpr (by decide)

/-! Unresolved label references make flattening fail (C5). -/

theorem lookupL_mem {labs : List (Label × Nat)} {L : Label} {v : Nat}
    (h : lookupL labs L = some v) : (L, v) ∈ labs := by
  induction labs with
  | nil => cases h
  | cons p r ih =>
    obtain ⟨k, w⟩ := p
    by_cases hk : L = k
    · subst hk
      simp [lookupL] at h
      subst h
      exact List.mem_cons_self _ _
    · simp [lookupL, hk] at h
      exact List.mem_cons_of_mem _ (ih h)

/-- Every binding in the dictionary built by the first pass either was there
already or stems from a `Label` entry of the walked stream. -/
theorem flatGo_labels_mem (es : List Entry) (idx off : Nat)
    (labs : List (Label × Nat)) (p : Label × Nat)
    (hp : p ∈ (flatGo es idx off labs).2) :
    p ∈ labs ∨ Entry.label p.1 ∈ es := by
  induction es generalizing idx off labs with
  | nil => exact .inl hp
  | cons e rest ih =>
    cases e with
    | label l =>
      have hp2 : p ∈ (flatGo rest (idx + 1) off ((l, off) :: labs)).2 := hp
      rcases ih (idx + 1) off ((l, off) :: labs) hp2 with hl | hr
      · rcases List.mem_cons.mp hl with hpe | hmem
        · subst hpe
          exact .inr (List.mem_cons_self _ _)
        · exact .inl hmem
      · exact .inr (List.mem_cons_of_mem _ hr)
    | instr i =>
      obtain ⟨nm, a, li, lo⟩ := i
      cases a with
      | labelArg t =>
        have hp2 : p ∈ (flatGo rest (idx + 1) (off + 1) labs).2 := hp
        rcases ih (idx + 1) (off + 1) labs hp2 with hl | hr
        · exact .inl hl
        · exact .inr (List.mem_cons_of_mem _ hr)
      | noArg =>
        have hp2 : p ∈ (flatGo rest (idx + 1) (off + 1) labs).2 := hp
        rcases ih (idx + 1) (off + 1) labs hp2 with hl | hr
        · exact .inl hl
        · exact .inr (List.mem_cons_of_mem _ hr)
      | intArg n =>
        have hp2 : p ∈ (flatGo rest (idx + 1) (off + 1) labs).2 := hp
        rcases ih (idx + 1) (off + 1) labs hp2 with hl | hr
        · exact .inl hl
        · exact .inr (List.mem_cons_of_mem _ hr)
      | strArg s =>
        have hp2 : p ∈ (flatGo rest (idx + 1) (off + 1) labs).2 := hp
        rcases ih (idx + 1) (off + 1) labs hp2 with hl | hr
        · exact .inl hl
        · exact .inr (List.mem_cons_of_mem _ hr)
    | setLineno n =>
      have hp2 : p ∈ (flatGo rest (idx + 1) (off + 1) labs).2 := hp
      rcases ih (idx + 1) (off + 1) labs hp2 with hl | hr
      · exact .inl hl
      · exact .inr (List.mem_cons_of_mem _ hr)
    | tryBegin k =>
      have hp2 : p ∈ (flatGo rest (idx + 1) (off + 1) labs).2 := hp
      rcases ih (idx + 1) (off + 1) labs hp2 with hl | hr
      · exact .inl hl
      · exact .inr (List.mem_cons_of_mem _ hr)
    | tryEnd k =>
      have hp2 : p ∈ (flatGo rest (idx + 1) (off + 1) labs).2 := hp
      rcases ih (idx + 1) (off + 1) labs hp2 with hl | hr
      · exact .inl hl
      · exact .inr (List.mem_cons_of_mem _ hr)
    | invalid t =>
      have hp2 : p ∈ (flatGo rest (idx + 1) (off + 1) labs).2 := hp
      rcases ih (idx + 1) (off + 1) labs hp2 with hl | hr
      · exact .inl hl
      · exact .inr (List.mem_cons_of_mem _ hr)

/-- A label-referencing instruction in the stream leaves a pending jump to its
target in the first-pass output. -/
theorem flatGo_jump_mem (es : List Entry) (idx off : Nat)
    (labs : List (Label × Nat)) (i : Instr) (L : Label)
    (h1 : Entry.instr i ∈ es) (h2 : i.arg = Arg.labelArg L) :
    ∃ nm loc, Pre.jump L nm loc ∈ (flatGo es idx off labs).1 := by
  induction es generalizing idx off labs with
  | nil => cases h1
  | cons e rest ih =>
    rcases List.mem_cons.mp h1 with he | hmem
    · subst he
      obtain ⟨nm, a, li, lo⟩ := i
      cases h2
      exact ⟨nm, lo, List.mem_cons_self _ _⟩
    · cases e with
      | label l =>
        obtain ⟨nm, loc, hj⟩ := ih (idx + 1) off ((l, off) :: labs) hmem
        exact ⟨nm, loc, List.mem_cons_of_mem _ hj⟩
      | instr j =>
        obtain ⟨jn, ja, jl, jo⟩ := j
        cases ja with
        | labelArg t =>
          obtain ⟨nm, loc, hj⟩ := ih (idx + 1) (off + 1) labs hmem
          exact ⟨nm, loc, List.mem_cons_of_mem _ hj⟩
        | noArg =>
          obtain ⟨nm, loc, hj⟩ := ih (idx + 1) (off + 1) labs hmem
          exact ⟨nm, loc, List.mem_cons_of_mem _ hj⟩
        | intArg n =>
          obtain ⟨nm, loc, hj⟩ := ih (idx + 1) (off + 1) labs hmem
          exact ⟨nm, loc, List.mem_cons_of_mem _ hj⟩
        | strArg s =>
          obtain ⟨nm, loc, hj⟩ := ih (idx + 1) (off + 1) labs hmem
          exact ⟨nm, loc, List.mem_cons_of_mem _ hj⟩
      | setLineno n =>
        obtain ⟨nm, loc, hj⟩ := ih (idx + 1) (off + 1) labs hmem
        exact ⟨nm, loc, List.mem_cons_of_mem _ hj⟩
      | tryBegin k =>
        obtain ⟨nm, loc, hj⟩ := ih (idx + 1) (off + 1) labs hmem
        exact ⟨nm, loc, List.mem_cons_of_mem _ hj⟩
      | tryEnd k =>
        obtain ⟨nm, loc, hj⟩ := ih (idx + 1) (off + 1) labs hmem
        exact ⟨nm, loc, List.mem_cons_of_mem _ hj⟩
      | invalid t =>
        obtain ⟨nm, loc, hj⟩ := ih (idx + 1) (off + 1) labs hmem
        exact ⟨nm, loc, List.mem_cons_of_mem _ hj⟩

/-- A successful resolution pass found every pending jump's target in the
dictionary. -/
theorem resolveJumps_ok_mem (labs : List (Label × Nat)) (ps : List Pre)
    (out : List FlatItem) (h : resolveJumps labs ps = .ok out)
    (L : Label) (nm : String) (loc : Option Loc)
    (hm : Pre.jump L nm loc ∈ ps) : (lookupL labs L).isSome = true := by
  induction ps generalizing out with
  | nil => cases hm
  | cons p r ih =>
    cases p with
    | done f =>
      have hm2 : Pre.jump L nm loc ∈ r := by
        rcases List.mem_cons.mp hm with hpe | h2
        · cases hpe
        · exact h2
      cases hrec : resolveJumps labs r with
      | error e =>
        exfalso
        have : resolveJumps labs (Pre.done f :: r) = .error e := by
          show (resolveJumps labs r).map _ = _
          rw [hrec]
          rfl
        rw [this] at h
        cases h
      | ok o => exact ih o hrec hm2
    | jump t n2 l2 =>
      cases hlk : lookupL labs t with
      | none =>
        exfalso
        have : resolveJumps labs (Pre.jump t n2 l2 :: r) = .error (.keyError t) := by
          show (match lookupL labs t with
                | none => Except.error (FlatErr.keyError t)
                | some off => (resolveJumps labs r).map
                    (fun l => FlatItem.concrete n2 off l2 :: l)) = _
          rw [hlk]
        rw [this] at h
        cases h
      | some v =>
        rcases List.mem_cons.mp hm with hpe | h2
        · injection hpe with hL hn hl
          subst hL
          rw [hlk]
          rfl
        · cases hrec : resolveJumps labs r with
          | error e =>
            exfalso
            have : resolveJumps labs (Pre.jump t n2 l2 :: r) = .error e := by
              show (match lookupL labs t with
                    | none => Except.error (FlatErr.keyError t)
                    | some off => (resolveJumps labs r).map
                        (fun l => FlatItem.concrete n2 off l2 :: l)) = _
              rw [hlk, hrec]
              rfl
            rw [this] at h
            cases h
          | ok o => exact ih o hrec h2

/-- C5: a container holding an instruction whose argument refers to a `Label`
that never occurs as a `Label` entry makes the comparison normalizer raise the
unresolved-reference (`KeyError`) failure, and structural equality — which
runs the normalizer — propagates it; the argument is never defaulted to 0. -/
theorem c5_unresolved_label (es : List Entry) (i : Instr) (L : Label)
    (other : List Entry)
    (h1 : Entry.instr i ∈ es) (h2 : i.arg = Arg.labelArg L)
    (h3 : Entry.label L ∉ es) :
    exOk (flat es) = false ∧ exOk (instrListEq es other) = false := by
  have hflat : exOk (flat es) = false := by
    cases hf : flat es with
    | error e => rfl
    | ok out =>
      exfalso
      obtain ⟨nm, loc, hjump⟩ := flatGo_jump_mem es 0 0 [] i L h1 h2
      have hf2 : resolveJumps (flatGo es 0 0 []).2 (flatGo es 0 0 []).1
          = .ok out := hf
      have hsome := resolveJumps_ok_mem _ _ _ hf2 L nm loc hjump
      cases hlk : lookupL (flatGo es 0 0 []).2 L with
      | none => rw [hlk] at hsome; cases hsome
      | some v =>
        rcases flatGo_labels_mem es 0 0 [] (L, v) (lookupL_mem hlk) with hc | hc
        · cases hc
        · exact h3 hc
  refine ⟨hflat, ?_⟩
  cases hf : flat es with
  | ok out =>
    rw [hf] at hflat
    cases hflat
  | error e =>
    have : instrListEq es other = .error e := by
      unfold instrListEq
      rw [hf]
      rfl
    rw [this]
    rfl

/-- C5 witness: a jump to a label that never appears: flattening and equality
against the empty stream both fail. -/
theorem c5_witness :
    exOk (flat [.instr { name := "JUMP_FORWARD", arg := .labelArg ⟨0⟩,
                         lineno := .unset, location := none }]) = false
    ∧ exOk (instrListEq
        [.instr { name := "JUMP_FORWARD", arg := .labelArg ⟨0⟩,
                  lineno := .unset, location := none }] []) = false :=
  c5_unresolved_label _ _ ⟨0⟩ [] (List.mem_cons_self _ _) rfl (by decide)

/-! Label-identity independence of the comparison normalizer (C2). -/

/-- Renaming applied to first-pass output: only pending jump targets hold
labels. -/
def renamePre (f : Label → Label) : Pre → Pre
  | .jump t nm loc => .jump (f t) nm loc
  | .done x => .done x

theorem lookupL_map_inj (f : Label → Label) (hf : Function.Injective f)
    (labs : List (Label × Nat)) (t : Label) :
    lookupL (labs.map (fun p => (f p.1, p.2))) (f t) = lookupL labs t := by
  induction labs with
  | nil => rfl
  | cons p r ih =>
    obtain ⟨k, v⟩ := p
    by_cases hk : t = k
    · subst hk
      simp [lookupL]
    · have hfk : f t ≠ f k := fun hc => hk (hf hc)
      simp [lookupL, hk, hfk, ih]

/-- The first pass commutes with label renaming: placeholders are indexed by
position (identity-free), jumps carry the renamed target, everything else is
untouched. -/
theorem flatGo_rename (f : Label → Label) (es : List Entry) (idx off : Nat)
    (labs : List (Label × Nat)) :
    flatGo (es.map (renameEntry f)) idx off (labs.map (fun p => (f p.1, p.2)))
      = ((flatGo es idx off labs).1.map (renamePre f),
         (flatGo es idx off labs).2.map (fun p => (f p.1, p.2))) := by
  induction es generalizing idx off labs with
  | nil => rfl
  | cons e rest ih =>
    cases e with
    | label l =>
      have := ih (idx + 1) off ((l, off) :: labs)
      simp only [List.map_cons, renameEntry]
      show (Pre.done (.labelStr idx) ::
              (flatGo (rest.map (renameEntry f)) (idx + 1) off
                ((f l, off) :: labs.map (fun p => (f p.1, p.2)))).1,
            (flatGo (rest.map (renameEntry f)) (idx + 1) off
                ((f l, off) :: labs.map (fun p => (f p.1, p.2)))).2) = _
      rw [show ((f l, off) :: labs.map (fun p => (f p.1, p.2)))
            = (((l, off) :: labs).map (fun p => (f p.1, p.2))) from rfl]
      rw [this]
      rfl
    | instr i =>
      obtain ⟨nm, a, li, lo⟩ := i
      cases a with
      | labelArg t =>
        have := ih (idx + 1) (off + 1) labs
        simp only [List.map_cons, renameEntry]
        show (Pre.jump (f t) nm lo ::
                (flatGo (rest.map (renameEntry f)) (idx + 1) (off + 1)
                  (labs.map (fun p => (f p.1, p.2)))).1, _) = _
        rw [this]
        rfl
      | noArg =>
        have := ih (idx + 1) (off + 1) labs
        simp only [List.map_cons, renameEntry]
        show (Pre.done (.entry (.instr ⟨nm, .noArg, li, lo⟩)) ::
                (flatGo (rest.map (renameEntry f)) (idx + 1) (off + 1)
                  (labs.map (fun p => (f p.1, p.2)))).1, _) = _
        rw [this]
        rfl
      | intArg n =>
        have := ih (idx + 1) (off + 1) labs
        simp only [List.map_cons, renameEntry]
        show (Pre.done (.entry (.instr ⟨nm, .intArg n, li, lo⟩)) ::
                (flatGo (rest.map (renameEntry f)) (idx + 1) (off + 1)
                  (labs.map (fun p => (f p.1, p.2)))).1, _) = _
        rw [this]
        rfl
      | strArg s =>
        have := ih (idx + 1) (off + 1) labs
        simp only [List.map_cons, renameEntry]
        show (Pre.done (.entry (.instr ⟨nm, .strArg s, li, lo⟩)) ::
                (flatGo (rest.map (renameEntry f)) (idx + 1) (off + 1)
                  (labs.map (fun p => (f p.1, p.2)))).1, _) = _
        rw [this]
        rfl
    | setLineno n =>
      have := ih (idx + 1) (off + 1) labs
      simp only [List.map_cons, renameEntry]
      show (Pre.done (.entry (.setLineno n)) ::
              (flatGo (rest.map (renameEntry f)) (idx + 1) (off + 1)
                (labs.map (fun p => (f p.1, p.2)))).1, _) = _
      rw [this]
      rfl
    | tryBegin k =>
      have := ih (idx + 1) (off + 1) labs
      simp only [List.map_cons, renameEntry]
      show (Pre.done (.entry (.tryBegin k)) ::
              (flatGo (rest.map (renameEntry f)) (idx + 1) (off + 1)
                (labs.map (fun p => (f p.1, p.2)))).1, _) = _
      rw [this]
      rfl
    | tryEnd k =>
      have := ih (idx + 1) (off + 1) labs
      simp only [List.map_cons, renameEntry]
      show (Pre.done (.entry (.tryEnd k)) ::
              (flatGo (rest.map (renameEntry f)) (idx + 1) (off + 1)
                (labs.map (fun p => (f p.1, p.2)))).1, _) = _
      rw [this]
      rfl
    | invalid t =>
      have := ih (idx + 1) (off + 1) labs
      simp only [List.map_cons, renameEntry]
      show (Pre.done (.entry (.invalid t)) ::
              (flatGo (rest.map (renameEntry f)) (idx + 1) (off + 1)
                (labs.map (fun p => (f p.1, p.2)))).1, _) = _
      rw [this]
      rfl

/-- A successful resolution is preserved by injective label renaming. -/
theorem resolveJumps_rename (f : Label → Label) (hf : Function.Injective f)
    (labs : List (Label × Nat)) (ps : List Pre) (out : List FlatItem)
    (h : resolveJumps labs ps = .ok out) :
    resolveJumps (labs.map (fun p => (f p.1, p.2))) (ps.map (renamePre f))
      = .ok out := by
  induction ps generalizing out with
  | nil =>
    cases h
    rfl
  | cons p r ih =>
    cases p with
    | done x =>
      cases hrec : resolveJumps labs r with
      | error e =>
        exfalso
        have hx : resolveJumps labs (Pre.done x :: r) = .error e := by
          show (resolveJumps labs r).map _ = _
          rw [hrec]
          rfl
        rw [hx] at h
        cases h
      | ok o =>
        have hx : resolveJumps labs (Pre.done x :: r) = .ok (x :: o) := by
          show (resolveJumps labs r).map _ = _
          rw [hrec]
          rfl
        rw [hx] at h
        injection h with h
        subst h
        show (resolveJumps (labs.map (fun p => (f p.1, p.2)))
                (r.map (renamePre f))).map _ = _
        rw [ih o hrec]
        rfl
    | jump t nm loc =>
      cases hlk : lookupL labs t with
      | none =>
        exfalso
        have hx : resolveJumps labs (Pre.jump t nm loc :: r)
            = .error (.keyError t) := by
          show (match lookupL labs t with
                | none => Except.error (FlatErr.keyError t)
                | some off => (resolveJumps labs r).map
                    (fun l => FlatItem.concrete nm off loc :: l)) = _
          rw [hlk]
        rw [hx] at h
        cases h
      | some v =>
        cases hrec : resolveJumps labs r with
        | error e =>
          exfalso
          have hx : resolveJumps labs (Pre.jump t nm loc :: r) = .error e := by
            show (match lookupL labs t with
                  | none => Except.error (FlatErr.keyError t)
                  | some off => (resolveJumps labs r).map
                      (fun l => FlatItem.concrete nm off loc :: l)) = _
            rw [hlk, hrec]
            rfl
          rw [hx] at h
          cases h
        | ok o =>
          have hx : resolveJumps labs (Pre.jump t nm loc :: r)
              = .ok (.concrete nm v loc :: o) := by
            show (match lookupL labs t with
                  | none => Except.error (FlatErr.keyError t)
                  | some off => (resolveJumps labs r).map
                      (fun l => FlatItem.concrete nm off loc :: l)) = _
            rw [hlk, hrec]
            rfl
          rw [hx] at h
          injection h with h
          subst h
          have hlk2 : lookupL (labs.map (fun p => (f p.1, p.2))) (f t) = some v := by
            rw [lookupL_map_inj f hf labs t, hlk]
          show (match lookupL (labs.map (fun p : Label × Nat => (f p.1, p.2))) (f t) with
                | none => Except.error (FlatErr.keyError (f t))
                | some off => (resolveJumps (labs.map (fun p : Label × Nat => (f p.1, p.2)))
                    (r.map (renamePre f))).map
                    (fun l => FlatItem.concrete nm off loc :: l)) = _
          rw [hlk2, ih o hrec]
          rfl

/-- Successful flattening is invariant under injective label renaming. -/
theorem flat_rename (f : Label → Label) (hf : Function.Injective f)
    (es : List Entry) (out : List FlatItem) (h : flat es = .ok out) :
    flat (es.map (renameEntry f)) = .ok out := by
  have h2 : resolveJumps (flatGo es 0 0 []).2 (flatGo es 0 0 []).1 = .ok out := h
  show resolveJumps (flatGo (es.map (renameEntry f)) 0 0 []).2
      (flatGo (es.map (renameEntry f)) 0 0 []).1 = .ok out
  rw [show ([] : List (Label × Nat))
        = ([] : List (Label × Nat)).map (fun p => (f p.1, p.2)) from rfl,
      flatGo_rename f es 0 0 []]
  exact resolveJumps_rename f hf _ _ out h2

/-- A container whose single instruction jumps to a label that never appears
as an entry. -/
def c2Dangling : Bytecode :=
  { meta := defaultMeta, argnames := [],
    entries := [.instr { name := "JUMP_ABSOLUTE", arg := .labelArg ⟨0⟩,
                         lineno := .unset, location := none }] }

/-- `c2Dangling` after renaming its (referenced, never-defined) label to the
fresh identity 1, preserving positions and reference structure. -/
def c2DanglingFresh : Bytecode :=
  { meta := defaultMeta, argnames := [],
    entries := [.instr { name := "JUMP_ABSOLUTE", arg := .labelArg ⟨1⟩,
                         lineno := .unset, location := none }] }

/-- C2 counterexample: for this container the fresh-label copy does not
compare equal — the comparison raises the unresolved-reference failure instead
of returning true, so the property does not hold of every container. -/
theorem c2_counterexample :
    bytecodeEq c2Dangling c2DanglingFresh = .error (.keyError ⟨0⟩) := by
  decide

/-- A successful validated traversal yields the entries unchanged. -/
theorem iterGo_ok_id (es : List Entry) (pos : Nat) (seen : Bool)
    (l : List Entry) (h : iterGo es pos seen = .ok l) : l = es := by
  induction es generalizing pos seen l with
  | nil =>
    injection h with h
    exact h.symm
  | cons e rest ih =>
    cases e with
    | invalid t => cases h
    | tryBegin k =>
      cases seen with
      | true => cases h
      | false =>
        cases hR : iterGo rest (pos + 1) true with
        | error e2 =>
          rw [show iterGo (Entry.tryBegin k :: rest) pos false
                = (iterGo rest (pos + 1) true).map
                    (fun x => Entry.tryBegin k :: x) from rfl, hR] at h
          cases h
        | ok l2 =>
          rw [show iterGo (Entry.tryBegin k :: rest) pos false
                = (iterGo rest (pos + 1) true).map
                    (fun x => Entry.tryBegin k :: x) from rfl, hR] at h
          injection h with h
          rw [← h, ih (pos + 1) true l2 hR]
    | tryEnd k =>
      cases hR : iterGo rest (pos + 1) false with
      | error e2 =>
        rw [show iterGo (Entry.tryEnd k :: rest) pos seen
              = (iterGo rest (pos + 1) false).map
                  (fun x => Entry.tryEnd k :: x) from rfl, hR] at h
        cases h
      | ok l2 =>
        rw [show iterGo (Entry.tryEnd k :: rest) pos seen
              = (iterGo rest (pos + 1) false).map
                  (fun x => Entry.tryEnd k :: x) from rfl, hR] at h
        injection h with h
        rw [← h, ih (pos + 1) false l2 hR]
    | label lb =>
      cases hR : iterGo rest (pos + 1) seen with
      | error e2 =>
        rw [show iterGo (Entry.label lb :: rest) pos seen
              = (iterGo rest (pos + 1) seen).map
                  (fun x => Entry.label lb :: x) from rfl, hR] at h
        cases h
      | ok l2 =>
        rw [show iterGo (Entry.label lb :: rest) pos seen
              = (iterGo rest (pos + 1) seen).map
                  (fun x => Entry.label lb :: x) from rfl, hR] at h
        injection h with h
        rw [← h, ih (pos + 1) seen l2 hR]
    | setLineno n =>
      cases hR : iterGo rest (pos + 1) seen with
      | error e2 =>
        rw [show iterGo (Entry.setLineno n :: rest) pos seen
              = (iterGo rest (pos + 1) seen).map
                  (fun x => Entry.setLineno n :: x) from rfl, hR] at h
        cases h
      | ok l2 =>
        rw [show iterGo (Entry.setLineno n :: rest) pos seen
              = (iterGo rest (pos + 1) seen).map
                  (fun x => Entry.setLineno n :: x) from rfl, hR] at h
        injection h with h
        rw [← h, ih (pos + 1) seen l2 hR]
    | instr i =>
      cases hR : iterGo rest (pos + 1) seen with
      | error e2 =>
        rw [show iterGo (Entry.instr i :: rest) pos seen
              = (iterGo rest (pos + 1) seen).map
                  (fun x => Entry.instr i :: x) from rfl, hR] at h
        cases h
      | ok l2 =>
        rw [show iterGo (Entry.instr i :: rest) pos seen
              = (iterGo rest (pos + 1) seen).map
                  (fun x => Entry.instr i :: x) from rfl, hR] at h
        injection h with h
        rw [← h, ih (pos + 1) seen l2 hR]

/-- Renaming labels does not change which constructor an entry is, so the
validating traversal behaves identically on the renamed stream. -/
theorem iterGo_rename (f : Label → Label) (es : List Entry) (pos : Nat)
    (seen : Bool) :
    iterGo (es.map (renameEntry f)) pos seen
      = (iterGo es pos seen).map (fun l => l.map (renameEntry f)) := by
  induction es generalizing pos seen with
  | nil => rfl
  | cons e rest ih =>
    cases e with
    | invalid t => rfl
    | tryBegin k =>
      cases seen with
      | true => rfl
      | false =>
        rw [show iterGo ((Entry.tryBegin k :: rest).map (renameEntry f)) pos false
              = (iterGo (rest.map (renameEntry f)) (pos + 1) true).map
                  (fun l => Entry.tryBegin k :: l) from rfl,
            show iterGo (Entry.tryBegin k :: rest) pos false
              = (iterGo rest (pos + 1) true).map
                  (fun l => Entry.tryBegin k :: l) from rfl,
            ih (pos + 1) true]
        cases iterGo rest (pos + 1) true <;> rfl
    | tryEnd k =>
      rw [show iterGo ((Entry.tryEnd k :: rest).map (renameEntry f)) pos seen
            = (iterGo (rest.map (renameEntry f)) (pos + 1) false).map
                (fun l => Entry.tryEnd k :: l) from rfl,
          show iterGo (Entry.tryEnd k :: rest) pos seen
            = (iterGo rest (pos + 1) false).map
                (fun l => Entry.tryEnd k :: l) from rfl,
          ih (pos + 1) false]
      cases iterGo rest (pos + 1) false <;> rfl
    | label lb =>
      rw [show iterGo ((Entry.label lb :: rest).map (renameEntry f)) pos seen
            = (iterGo (rest.map (renameEntry f)) (pos + 1) seen).map
                (fun l => Entry.label (f lb) :: l) from rfl,
          show iterGo (Entry.label lb :: rest) pos seen
            = (iterGo rest (pos + 1) seen).map
                (fun l => Entry.label lb :: l) from rfl,
          ih (pos + 1) seen]
      cases iterGo rest (pos + 1) seen <;> rfl
    | setLineno n =>
      rw [show iterGo ((Entry.setLineno n :: rest).map (renameEntry f)) pos seen
            = (iterGo (rest.map (renameEntry f)) (pos + 1) seen).map
                (fun l => Entry.setLineno n :: l) from rfl,
          show iterGo (Entry.setLineno n :: rest) pos seen
            = (iterGo rest (pos + 1) seen).map
                (fun l => Entry.setLineno n :: l) from rfl,
          ih (pos + 1) seen]
      cases iterGo rest (pos + 1) seen <;> rfl
    | instr i =>
      rw [show iterGo ((Entry.instr i :: rest).map (renameEntry f)) pos seen
            = (iterGo (rest.map (renameEntry f)) (pos + 1) seen).map
                (fun l => renameEntry f (Entry.instr i) :: l) from rfl,
          show iterGo (Entry.instr i :: rest) pos seen
            = (iterGo rest (pos + 1) seen).map
                (fun l => Entry.instr i :: l) from rfl,
          ih (pos + 1) seen]
      cases iterGo rest (pos + 1) seen <;> rfl

/-- Successful validated flattening is invariant under injective label
renaming. -/
theorem flatB_rename (f : Label → Label) (hf : Function.Injective f)
    (es : List Entry) (out : List FlatItem) (h : flatB es = .ok out) :
    flatB (es.map (renameEntry f)) = .ok out := by
  cases hit : iterGo es 0 false with
  | error e =>
    exfalso
    unfold flatB at h
    rw [hit] at h
    cases h
  | ok l =>
    have hl : l = es := iterGo_ok_id es 0 false l hit
    subst hl
    cases hfl : flat l with
    | error e =>
      exfalso
      unfold flatB at h
      rw [hit] at h
      have h2 : (match flat l with
            | Except.error e2 => Except.error (toEqErrF e2)
            | Except.ok o => Except.ok o) = Except.ok out := h
      rw [hfl] at h2
      have h3 : Except.error (toEqErrF e) = Except.ok out := h2
      cases h3
    | ok out2 =>
      have hout : out2 = out := by
        unfold flatB at h
        rw [hit] at h
        have h2 : (match flat l with
              | Except.error e2 => Except.error (toEqErrF e2)
              | Except.ok o => Except.ok o) = Except.ok out := h
        rw [hfl] at h2
        have h3 : Except.ok out2 = Except.ok out := h2
        injection h3 with h3
      unfold flatB
      rw [iterGo_rename f l 0 false, hit]
      show (match flat (l.map (renameEntry f)) with
            | .error e => Except.error (toEqErrF e)
            | .ok o => Except.ok o) = Except.ok out
      rw [flat_rename f hf l out2 hfl, hout]

/-- C2 (amended): for every container whose validated flattening succeeds (the
entries pass the traversal checks and every label referenced by an instruction
appears in the stream), renaming all labels with a fresh (injective) identity
assignment — positions and reference structure preserved — yields a container
that compares equal to the original. -/
theorem c2_label_rename_eq (f : Label → Label) (hf : Function.Injective f)
    (bc : Bytecode) (out : List FlatItem) (h : flatB bc.entries = .ok out) :
    bytecodeEq bc { bc with entries := bc.entries.map (renameEntry f) }
      = .ok true := by
  have h2 := flatB_rename f hf bc.entries out h
  unfold bytecodeEq
  rw [show ({ bc with entries := bc.entries.map (renameEntry f) } : Bytecode).entries
        = bc.entries.map (renameEntry f) from rfl]
  rw [h, h2]
  show Except.ok (out == out) = Except.ok true
  simp

/-- A resolvable container: one label entry and a jump to it. -/
def c2Resolvable : Bytecode :=
  { meta := defaultMeta, argnames := [],
    entries := [.label ⟨5⟩,
                .instr { name := "JUMP_ABSOLUTE", arg := .labelArg ⟨5⟩,
                         lineno := .unset, location := none }] }

/-- C2 witness: the amended theorem at the resolvable container, with the
injective renaming that shifts every label identity by one. -/
theorem c2_witness :
    bytecodeEq c2Resolvable
      { c2Resolvable with
        entries := c2Resolvable.entries.map (renameEntry fun l => ⟨l.id + 1⟩) }
      = .ok true :=
  c2_label_rename_eq (fun l => ⟨l.id + 1⟩)
    (fun a b hh => by
      cases a with
      | mk x =>
        cases b with
        | mk y =>
          simp only [Label.mk.injEq] at hh ⊢
          omega)
    c2Resolvable
    [.labelStr 0, .concrete "JUMP_ABSOLUTE" 0 none]
    rfl

/-! Analysis of legalization (C6 and C9). -/

/-- Whether an entry is an instruction whose line number has been assigned
(non-instructions trivially qualify). -/
def instrLinenoSet : Entry → Bool
  | .instr i =>
    match i.lineno with
    | .unset => false
    | .ln _ => true
  | _ => true

/-- The positions (starting at `p`) of the `SetLineno` entries of a list. -/
def slIdxs : List Entry → Nat → List Nat
  | [], _ => []
  | e :: r, p => if isSetLineno e then p :: slIdxs r (p + 1) else slIdxs r (p + 1)

/-- Success of the exception-region nesting check, started with open-flag
`seen`, over a list of entries. -/
def nestOk : Bool → List Entry → Bool
  | _, [] => true
  | seen, .tryBegin _ :: r => if seen then false else nestOk true r
  | _, .tryEnd _ :: r => nestOk false r
  | seen, _ :: r => nestOk seen r

/-- Two entries equal up to the line number of an instruction. -/
def lineEq : Entry → Entry → Bool
  | .instr i, .instr j => i.name == j.name && i.arg == j.arg && i.location == j.location
  | a, b => a == b

theorem slIdxs_shift (l : List Entry) (p : Nat) :
    slIdxs l (p + 1) = (slIdxs l p).map (· + 1) := by
  induction l generalizing p with
  | nil => rfl
  | cons e r ih =>
    by_cases he : isSetLineno e
    · simp [slIdxs, he, ih (p + 1)]
    · simp [slIdxs, he, ih (p + 1)]

theorem foldl_erase_map_succ (js : List Nat) (l : List Entry) (a : Entry) :
    (js.map (· + 1)).foldl (fun acc i => acc.eraseIdx i) (a :: l)
      = a :: js.foldl (fun acc i => acc.eraseIdx i) l := by
  induction js generalizing l with
  | nil => rfl
  | cons j r ih =>
    simp only [List.map_cons, List.foldl_cons]
    rw [show (a :: l).eraseIdx (j + 1) = a :: l.eraseIdx j from rfl]
    exact ih (l.eraseIdx j)

/-- Deleting the recorded `SetLineno` positions in reverse order removes
exactly the `SetLineno` entries. -/
theorem deleteIdxs_slIdxs (l : List Entry) :
    deleteIdxs l (slIdxs l 0) = l.filter (fun e => !isSetLineno e) := by
  induction l with
  | nil => rfl
  | cons a r ih =>
    by_cases ha : isSetLineno a
    · have h0 : slIdxs (a :: r) 0 = 0 :: (slIdxs r 0).map (· + 1) := by
        simp [slIdxs, ha, slIdxs_shift]
      rw [h0]
      unfold deleteIdxs
      rw [List.reverse_cons, List.foldl_append]
      rw [show ((slIdxs r 0).map (· + 1)).reverse = (slIdxs r 0).reverse.map (· + 1) by
            rw [← List.map_reverse]]
      rw [foldl_erase_map_succ]
      rw [show (slIdxs r 0).reverse.foldl (fun acc i => acc.eraseIdx i) r
            = deleteIdxs r (slIdxs r 0) from rfl]
      rw [ih]
      simp [List.filter_cons, ha]
    · have h0 : slIdxs (a :: r) 0 = (slIdxs r 0).map (· + 1) := by
        simp [slIdxs, ha, slIdxs_shift]
      rw [h0]
      unfold deleteIdxs
      rw [show ((slIdxs r 0).map (· + 1)).reverse = (slIdxs r 0).reverse.map (· + 1) by
            rw [← List.map_reverse]]
      rw [foldl_erase_map_succ]
      rw [show (slIdxs r 0).reverse.foldl (fun acc i => acc.eraseIdx i) r
            = deleteIdxs r (slIdxs r 0) from rfl]
      rw [ih]
      simp [List.filter_cons, ha]

/-- Filtering the line markers out preserves the nesting check: markers never
touch the open-region state. -/
theorem nestOk_filter (s : Bool) (l : List Entry) (h : nestOk s l = true) :
    nestOk s (l.filter (fun e => !isSetLineno e)) = true := by
  induction l generalizing s with
  | nil => exact h
  | cons e r ih =>
    cases e with
    | setLineno n =>
      have h2 : nestOk s r = true := h
      simpa [List.filter_cons, isSetLineno] using ih s h2
    | tryBegin k =>
      have hs : s = false := by
        cases s
        · rfl
        · exact absurd h (by simp [nestOk])
      subst hs
      have h2 : nestOk true r = true := by simpa [nestOk] using h
      simpa [List.filter_cons, isSetLineno, nestOk] using ih true h2
    | tryEnd k =>
      have h2 : nestOk false r = true := h
      simpa [List.filter_cons, isSetLineno, nestOk] using ih false h2
    | label lb =>
      have h2 : nestOk s r = true := h
      simpa [List.filter_cons, isSetLineno, nestOk] using ih s h2
    | instr i =>
      have h2 : nestOk s r = true := h
      simpa [List.filter_cons, isSetLineno, nestOk] using ih s h2
    | invalid t =>
      have h2 : nestOk s r = true := h
      simpa [List.filter_cons, isSetLineno, nestOk] using ih s h2

theorem triple_eq_none {a : List Entry} {b : List Nat} {c : Option IterErr}
    {es2 : List Entry} {ps : List Nat}
    (h : (a, b, c) = (es2, ps, (none : Option IterErr))) :
    a = es2 ∧ b = ps ∧ c = none := by
  injection h with h1 h2
  injection h2 with h2 h3
  exact ⟨h1, h2, h3⟩

/-- What a successful legalization walk guarantees about the processed list:
the recorded positions are exactly the `SetLineno` positions, no entry is
invalid, every instruction has an assigned line number, and the nesting check
holds from the starting flag. -/
theorem legalizeGo_ok (es : List Entry) (pos : Nat) (sl : Option Int)
    (cur : Int) (seen : Bool) (es2 : List Entry) (ps : List Nat)
    (h : legalizeGo es pos sl cur seen = (es2, ps, none)) :
    ps = slIdxs es2 pos
    ∧ (∀ e ∈ es2, isInvalid e = false)
    ∧ (∀ e ∈ es2, instrLinenoSet e = true)
    ∧ nestOk seen es2 = true := by
  induction es generalizing pos sl cur seen es2 ps with
  | nil =>
    obtain ⟨h1, h2, h3⟩ := triple_eq_none (show (([] : List Entry), ([] : List Nat),
        (none : Option IterErr)) = (es2, ps, none) from h)
    subst h1
    subst h2
    refine ⟨rfl, ?_, ?_, rfl⟩
    · intro x hx
      cases hx
    · intro x hx
      cases hx
  | cons e rest ih =>
    cases e with
    | invalid t =>
      obtain ⟨h1, h2, h3⟩ := triple_eq_none (show ((Entry.invalid t :: rest),
          ([] : List Nat), some (IterErr.valueError t)) = (es2, ps, none) from h)
      cases h3
    | tryBegin k =>
      cases seen with
      | true =>
        obtain ⟨h1, h2, h3⟩ := triple_eq_none (show ((Entry.tryBegin k :: rest),
            ([] : List Nat), some (IterErr.nestingError pos)) = (es2, ps, none) from h)
        cases h3
      | false =>
        cases hR : legalizeGo rest (pos + 1) sl cur true with
        | mk r2 q =>
          obtain ⟨ps2, err2⟩ := q
          have h0 : (Entry.tryBegin k :: r2, ps2, err2)
              = (es2, ps, (none : Option IterErr)) := by
            rw [show legalizeGo (Entry.tryBegin k :: rest) pos sl cur false
                  = (Entry.tryBegin k :: (legalizeGo rest (pos + 1) sl cur true).1,
                     (legalizeGo rest (pos + 1) sl cur true).2.1,
                     (legalizeGo rest (pos + 1) sl cur true).2.2) from rfl, hR] at h
            exact h
          obtain ⟨h1, h2, h3⟩ := triple_eq_none h0
          subst h3
          subst h1
          subst h2
          obtain ⟨ihp, ihi, ihl, ihn⟩ := ih (pos + 1) sl cur true r2 ps2 hR
          refine ⟨by simpa [slIdxs, isSetLineno] using ihp, ?_, ?_, ?_⟩
          · intro x hx
            rcases List.mem_cons.mp hx with rfl | hx2
            · rfl
            · exact ihi x hx2
          · intro x hx
            rcases List.mem_cons.mp hx with rfl | hx2
            · rfl
            · exact ihl x hx2
          · simpa [nestOk] using ihn
    | tryEnd k =>
      cases hR : legalizeGo rest (pos + 1) sl cur false with
      | mk r2 q =>
        obtain ⟨ps2, err2⟩ := q
        have h0 : (Entry.tryEnd k :: r2, ps2, err2)
            = (es2, ps, (none : Option IterErr)) := by
          rw [show legalizeGo (Entry.tryEnd k :: rest) pos sl cur seen
                = (Entry.tryEnd k :: (legalizeGo rest (pos + 1) sl cur false).1,
                   (legalizeGo rest (pos + 1) sl cur false).2.1,
                   (legalizeGo rest (pos + 1) sl cur false).2.2) from rfl, hR] at h
          exact h
        obtain ⟨h1, h2, h3⟩ := triple_eq_none h0
        subst h3
        subst h1
        subst h2
        obtain ⟨ihp, ihi, ihl, ihn⟩ := ih (pos + 1) sl cur false r2 ps2 hR
        refine ⟨by simpa [slIdxs, isSetLineno] using ihp, ?_, ?_, ?_⟩
        · intro x hx
          rcases List.mem_cons.mp hx with rfl | hx2
          · rfl
          · exact ihi x hx2
        · intro x hx
          rcases List.mem_cons.mp hx with rfl | hx2
          · rfl
          · exact ihl x hx2
        · simpa [nestOk] using ihn
    | label lb =>
      cases hR : legalizeGo rest (pos + 1) sl cur seen with
      | mk r2 q =>
        obtain ⟨ps2, err2⟩ := q
        have h0 : (Entry.label lb :: r2, ps2, err2)
            = (es2, ps, (none : Option IterErr)) := by
          rw [show legalizeGo (Entry.label lb :: rest) pos sl cur seen
                = (Entry.label lb :: (legalizeGo rest (pos + 1) sl cur seen).1,
                   (legalizeGo rest (pos + 1) sl cur seen).2.1,
                   (legalizeGo rest (pos + 1) sl cur seen).2.2) from rfl, hR] at h
          exact h
        obtain ⟨h1, h2, h3⟩ := triple_eq_none h0
        subst h3
        subst h1
        subst h2
        obtain ⟨ihp, ihi, ihl, ihn⟩ := ih (pos + 1) sl cur seen r2 ps2 hR
        refine ⟨by simpa [slIdxs, isSetLineno] using ihp, ?_, ?_, ?_⟩
        · intro x hx
          rcases List.mem_cons.mp hx with rfl | hx2
          · rfl
          · exact ihi x hx2
        · intro x hx
          rcases List.mem_cons.mp hx with rfl | hx2
          · rfl
          · exact ihl x hx2
        · simpa [nestOk] using ihn
    | setLineno n =>
      cases hR : legalizeGo rest (pos + 1) (some n) cur seen with
      | mk r2 q =>
        obtain ⟨ps2, err2⟩ := q
        have h0 : (Entry.setLineno n :: r2, pos :: ps2, err2)
            = (es2, ps, (none : Option IterErr)) := by
          rw [show legalizeGo (Entry.setLineno n :: rest) pos sl cur seen
                = (Entry.setLineno n :: (legalizeGo rest (pos + 1) (some n) cur seen).1,
                   pos :: (legalizeGo rest (pos + 1) (some n) cur seen).2.1,
                   (legalizeGo rest (pos + 1) (some n) cur seen).2.2) from rfl, hR] at h
          exact h
        obtain ⟨h1, h2, h3⟩ := triple_eq_none h0
        subst h3
        subst h1
        subst h2
        obtain ⟨ihp, ihi, ihl, ihn⟩ := ih (pos + 1) (some n) cur seen r2 ps2 hR
        refine ⟨by simpa [slIdxs, isSetLineno] using ihp, ?_, ?_, ?_⟩
        · intro x hx
          rcases List.mem_cons.mp hx with rfl | hx2
          · rfl
          · exact ihi x hx2
        · intro x hx
          rcases List.mem_cons.mp hx with rfl | hx2
          · rfl
          · exact ihl x hx2
        · simpa [nestOk] using ihn
    | instr i =>
      cases sl with
      | some n =>
        cases hR : legalizeGo rest (pos + 1) (some n) cur seen with
        | mk r2 q =>
          obtain ⟨ps2, err2⟩ := q
          have h0 : (Entry.instr { i with lineno := .ln n } :: r2, ps2, err2)
              = (es2, ps, (none : Option IterErr)) := by
            rw [show legalizeGo (Entry.instr i :: rest) pos (some n) cur seen
                  = (Entry.instr { i with lineno := .ln n }
                      :: (legalizeGo rest (pos + 1) (some n) cur seen).1,
                     (legalizeGo rest (pos + 1) (some n) cur seen).2.1,
                     (legalizeGo rest (pos + 1) (some n) cur seen).2.2) from rfl, hR] at h
            exact h
          obtain ⟨h1, h2, h3⟩ := triple_eq_none h0
          subst h3
          subst h1
          subst h2
          obtain ⟨ihp, ihi, ihl, ihn⟩ := ih (pos + 1) (some n) cur seen r2 ps2 hR
          refine ⟨by simpa [slIdxs, isSetLineno] using ihp, ?_, ?_, ?_⟩
          · intro x hx
            rcases List.mem_cons.mp hx with rfl | hx2
            · rfl
            · exact ihi x hx2
          · intro x hx
            rcases List.mem_cons.mp hx with rfl | hx2
            · rfl
            · exact ihl x hx2
          · simpa [nestOk] using ihn
      | none =>
        obtain ⟨nm, a0, li, lo⟩ := i
        cases li with
        | unset =>
          cases hR : legalizeGo rest (pos + 1) none cur seen with
          | mk r2 q =>
            obtain ⟨ps2, err2⟩ := q
            have h0 : (Entry.instr ⟨nm, a0, .ln cur, lo⟩ :: r2, ps2, err2)
                = (es2, ps, (none : Option IterErr)) := by
              rw [show legalizeGo (Entry.instr ⟨nm, a0, .unset, lo⟩ :: rest) pos none cur seen
                    = (Entry.instr ⟨nm, a0, .ln cur, lo⟩
                        :: (legalizeGo rest (pos + 1) none cur seen).1,
                       (legalizeGo rest (pos + 1) none cur seen).2.1,
                       (legalizeGo rest (pos + 1) none cur seen).2.2) from rfl, hR] at h
              exact h
            obtain ⟨h1, h2, h3⟩ := triple_eq_none h0
            subst h3
            subst h1
            subst h2
            obtain ⟨ihp, ihi, ihl, ihn⟩ := ih (pos + 1) none cur seen r2 ps2 hR
            refine ⟨by simpa [slIdxs, isSetLineno] using ihp, ?_, ?_, ?_⟩
            · intro x hx
              rcases List.mem_cons.mp hx with rfl | hx2
              · rfl
              · exact ihi x hx2
            · intro x hx
              rcases List.mem_cons.mp hx with rfl | hx2
              · rfl
              · exact ihl x hx2
            · simpa [nestOk] using ihn
        | ln m =>
          cases hR : legalizeGo rest (pos + 1) none m seen with
          | mk r2 q =>
            obtain ⟨ps2, err2⟩ := q
            have h0 : (Entry.instr ⟨nm, a0, .ln m, lo⟩ :: r2, ps2, err2)
                = (es2, ps, (none : Option IterErr)) := by
              rw [show legalizeGo (Entry.instr ⟨nm, a0, .ln m, lo⟩ :: rest) pos none cur seen
                    = (Entry.instr ⟨nm, a0, .ln m, lo⟩
                        :: (legalizeGo rest (pos + 1) none m seen).1,
                       (legalizeGo rest (pos + 1) none m seen).2.1,
                       (legalizeGo rest (pos + 1) none m seen).2.2) from rfl, hR] at h
              exact h
            obtain ⟨h1, h2, h3⟩ := triple_eq_none h0
            subst h3
            subst h1
            subst h2
            obtain ⟨ihp, ihi, ihl, ihn⟩ := ih (pos + 1) none m seen r2 ps2 hR
            refine ⟨by simpa [slIdxs, isSetLineno] using ihp, ?_, ?_, ?_⟩
            · intro x hx
              rcases List.mem_cons.mp hx with rfl | hx2
              · rfl
              · exact ihi x hx2
            · intro x hx
              rcases List.mem_cons.mp hx with rfl | hx2
              · rfl
              · exact ihl x hx2
            · simpa [nestOk] using ihn

/-- A list in legal normal form — no markers, no invalid entries, all
instruction line numbers assigned, nesting valid from `seen` — is a fixed
point of the legalization walk, for any running line number. -/
theorem legalizeGo_fixed (es : List Entry) (pos : Nat) (cur : Int) (seen : Bool)
    (h1 : ∀ e ∈ es, isSetLineno e = false)
    (h2 : ∀ e ∈ es, isInvalid e = false)
    (h3 : ∀ e ∈ es, instrLinenoSet e = true)
    (h4 : nestOk seen es = true) :
    legalizeGo es pos none cur seen = (es, [], none) := by
  induction es generalizing pos cur seen with
  | nil => rfl
  | cons e rest ih =>
    have h1r : ∀ x ∈ rest, isSetLineno x = false :=
      fun x hx => h1 x (List.mem_cons_of_mem e hx)
    have h2r : ∀ x ∈ rest, isInvalid x = false :=
      fun x hx => h2 x (List.mem_cons_of_mem e hx)
    have h3r : ∀ x ∈ rest, instrLinenoSet x = true :=
      fun x hx => h3 x (List.mem_cons_of_mem e hx)
    cases e with
    | invalid t =>
      have := h2 (.invalid t) (List.mem_cons_self _ _)
      simp [isInvalid] at this
    | setLineno n =>
      have := h1 (.setLineno n) (List.mem_cons_self _ _)
      simp [isSetLineno] at this
    | label lb =>
      have h4r : nestOk seen rest = true := h4
      show (Entry.label lb :: (legalizeGo rest (pos + 1) none cur seen).1,
            (legalizeGo rest (pos + 1) none cur seen).2.1,
            (legalizeGo rest (pos + 1) none cur seen).2.2) = _
      rw [ih (pos + 1) cur seen h1r h2r h3r h4r]
    | tryBegin k =>
      cases seen with
      | true => simp [nestOk] at h4
      | false =>
        have h4r : nestOk true rest = true := by simpa [nestOk] using h4
        show (Entry.tryBegin k :: (legalizeGo rest (pos + 1) none cur true).1,
              (legalizeGo rest (pos + 1) none cur true).2.1,
              (legalizeGo rest (pos + 1) none cur true).2.2) = _
        rw [ih (pos + 1) cur true h1r h2r h3r h4r]
    | tryEnd k =>
      have h4r : nestOk false rest = true := h4
      show (Entry.tryEnd k :: (legalizeGo rest (pos + 1) none cur false).1,
            (legalizeGo rest (pos + 1) none cur false).2.1,
            (legalizeGo rest (pos + 1) none cur false).2.2) = _
      rw [ih (pos + 1) cur false h1r h2r h3r h4r]
    | instr i =>
      obtain ⟨nm, a0, li, lo⟩ := i
      cases li with
      | unset =>
        have := h3 (.instr ⟨nm, a0, .unset, lo⟩) (List.mem_cons_self _ _)
        simp [instrLinenoSet] at this
      | ln m =>
        have h4r : nestOk seen rest = true := h4
        show (Entry.instr ⟨nm, a0, .ln m, lo⟩
                :: (legalizeGo rest (pos + 1) none m seen).1,
              (legalizeGo rest (pos + 1) none m seen).2.1,
              (legalizeGo rest (pos + 1) none m seen).2.2) = _
        rw [ih (pos + 1) m seen h1r h2r h3r h4r]

/-- C6: legalization is idempotent — when `legalize` succeeds, a second run
leaves the entry sequence and the metadata exactly as the first run left
them. -/
theorem c6_legalize_idempotent (bc bc2 : Bytecode) (h : legalize bc = .ok bc2) :
    legalize bc2 = .ok bc2 := by
  cases hgo : legalizeGo bc.entries 0 none bc.meta.first_lineno false with
  | mk es2 q =>
    obtain ⟨ps2, err2⟩ := q
    cases err2 with
    | some err =>
      exfalso
      unfold legalize at h
      rw [hgo] at h
      cases h
    | none =>
      have hb : bc2 = { bc with entries := deleteIdxs es2 ps2 } := by
        unfold legalize at h
        rw [hgo] at h
        injection h with h
        exact h.symm
      obtain ⟨ihp, ihi, ihl, ihn⟩ := legalizeGo_ok bc.entries 0 none
        bc.meta.first_lineno false es2 ps2 hgo
      have hdel : deleteIdxs es2 ps2 = es2.filter (fun e => !isSetLineno e) := by
        rw [ihp]
        exact deleteIdxs_slIdxs es2
      have hmem : ∀ x ∈ es2.filter (fun e => !isSetLineno e), x ∈ es2 :=
        fun x hx => (List.mem_filter.mp hx).1
      have f1 : ∀ x ∈ es2.filter (fun e => !isSetLineno e), isSetLineno x = false := by
        intro x hx
        have := (List.mem_filter.mp hx).2
        simpa using this
      have f2 : ∀ x ∈ es2.filter (fun e => !isSetLineno e), isInvalid x = false :=
        fun x hx => ihi x (hmem x hx)
      have f3 : ∀ x ∈ es2.filter (fun e => !isSetLineno e), instrLinenoSet x = true :=
        fun x hx => ihl x (hmem x hx)
      have f4 : nestOk false (es2.filter (fun e => !isSetLineno e)) = true :=
        nestOk_filter false es2 ihn
      have hfix := legalizeGo_fixed (es2.filter (fun e => !isSetLineno e)) 0
        bc2.meta.first_lineno false f1 f2 f3 f4
      have hent : bc2.entries = es2.filter (fun e => !isSetLineno e) := by
        rw [hb, hdel]
      unfold legalize
      rw [hent, hfix]
      show Except.ok { meta := bc2.meta, argnames := bc2.argnames,
                       entries := es2.filter (fun e => !isSetLineno e) }
        = Except.ok bc2
      rw [← hent]

/-- The container legalization of which exercises both a marker and the
running-line rule. -/
def c6Start : Bytecode :=
  { meta := defaultMeta, argnames := [],
    entries := [.setLineno 4,
                .instr { name := "A", arg := .noArg, lineno := .unset, location := none },
                .instr { name := "B", arg := .noArg, lineno := .unset, location := none }] }

/-- The result of legalizing `c6Start`. -/
def c6Legalized : Bytecode :=
  { meta := defaultMeta, argnames := [],
    entries := [.instr { name := "A", arg := .noArg, lineno := .ln 4, location := none },
                .instr { name := "B", arg := .noArg, lineno := .ln 4, location := none }] }

/-- C6 witness: the theorem applied to a concrete successful run. -/
theorem c6_witness : legalize c6Legalized = .ok c6Legalized :=
  c6_legalize_idempotent c6Start c6Legalized (by decide)

theorem triple_eq_some {a : List Entry} {b : List Nat} {c : Option IterErr}
    {es2 : List Entry} {ps : List Nat} {err : IterErr}
    (h : (a, b, c) = (es2, ps, some err)) :
    a = es2 ∧ b = ps ∧ c = some err := by
  injection h with h1 h2
  injection h2 with h2 h3
  exact ⟨h1, h2, h3⟩

theorem lineEq_refl (e : Entry) : lineEq e e = true := by
  cases e <;> simp [lineEq]

/-- A failed legalization walk leaves every entry in place, each equal to the
original up to an instruction line number (prefix rewritten, suffix
untouched); in particular nothing was deleted. -/
theorem legalizeGo_error (es : List Entry) (pos : Nat) (sl : Option Int)
    (cur : Int) (seen : Bool) (es2 : List Entry) (ps : List Nat) (err : IterErr)
    (h : legalizeGo es pos sl cur seen = (es2, ps, some err)) :
    List.Forall₂ (fun a b => lineEq a b = true) es es2 := by
  induction es generalizing pos sl cur seen es2 ps err with
  | nil =>
    obtain ⟨h1, h2, h3⟩ := triple_eq_some (show (([] : List Entry), ([] : List Nat),
        (none : Option IterErr)) = (es2, ps, some err) from h)
    cases h3
  | cons e rest ih =>
    cases e with
    | invalid t =>
      obtain ⟨h1, h2, h3⟩ := triple_eq_some (show ((Entry.invalid t :: rest),
          ([] : List Nat), some (IterErr.valueError t)) = (es2, ps, some err) from h)
      subst h1
      exact List.forall₂_same.mpr fun x _ => lineEq_refl x
    | tryBegin k =>
      cases seen with
      | true =>
        obtain ⟨h1, h2, h3⟩ := triple_eq_some (show ((Entry.tryBegin k :: rest),
            ([] : List Nat), some (IterErr.nestingError pos)) = (es2, ps, some err) from h)
        subst h1
        exact List.forall₂_same.mpr fun x _ => lineEq_refl x
      | false =>
        cases hR : legalizeGo rest (pos + 1) sl cur true with
        | mk r2 q =>
          obtain ⟨ps2, err2⟩ := q
          have h0 : (Entry.tryBegin k :: r2, ps2, err2) = (es2, ps, some err) := by
            rw [show legalizeGo (Entry.tryBegin k :: rest) pos sl cur false
                  = (Entry.tryBegin k :: (legalizeGo rest (pos + 1) sl cur true).1,
                     (legalizeGo rest (pos + 1) sl cur true).2.1,
                     (legalizeGo rest (pos + 1) sl cur true).2.2) from rfl, hR] at h
            exact h
          obtain ⟨h1, h2, h3⟩ := triple_eq_some h0
          subst h3
          subst h1
          exact List.Forall₂.cons (lineEq_refl _) (ih _ _ _ _ _ _ _ hR)
    | tryEnd k =>
      cases hR : legalizeGo rest (pos + 1) sl cur false with
      | mk r2 q =>
        obtain ⟨ps2, err2⟩ := q
        have h0 : (Entry.tryEnd k :: r2, ps2, err2) = (es2, ps, some err) := by
          rw [show legalizeGo (Entry.tryEnd k :: rest) pos sl cur seen
                = (Entry.tryEnd k :: (legalizeGo rest (pos + 1) sl cur false).1,
                   (legalizeGo rest (pos + 1) sl cur false).2.1,
                   (legalizeGo rest (pos + 1) sl cur false).2.2) from rfl, hR] at h
          exact h
        obtain ⟨h1, h2, h3⟩ := triple_eq_some h0
        subst h3
        subst h1
        exact List.Forall₂.cons (lineEq_refl _) (ih _ _ _ _ _ _ _ hR)
    | label lb =>
      cases hR : legalizeGo rest (pos + 1) sl cur seen with
      | mk r2 q =>
        obtain ⟨ps2, err2⟩ := q
        have h0 : (Entry.label lb :: r2, ps2, err2) = (es2, ps, some err) := by
          rw [show legalizeGo (Entry.label lb :: rest) pos sl cur seen
                = (Entry.label lb :: (legalizeGo rest (pos + 1) sl cur seen).1,
                   (legalizeGo rest (pos + 1) sl cur seen).2.1,
                   (legalizeGo rest (pos + 1) sl cur seen).2.2) from rfl, hR] at h
          exact h
        obtain ⟨h1, h2, h3⟩ := triple_eq_some h0
        subst h3
        subst h1
        exact List.Forall₂.cons (lineEq_refl _) (ih _ _ _ _ _ _ _ hR)
    | setLineno n =>
      cases hR : legalizeGo rest (pos + 1) (some n) cur seen with
      | mk r2 q =>
        obtain ⟨ps2, err2⟩ := q
        have h0 : (Entry.setLineno n :: r2, pos :: ps2, err2) = (es2, ps, some err) := by
          rw [show legalizeGo (Entry.setLineno n :: rest) pos sl cur seen
                = (Entry.setLineno n :: (legalizeGo rest (pos + 1) (some n) cur seen).1,
                   pos :: (legalizeGo rest (pos + 1) (some n) cur seen).2.1,
                   (legalizeGo rest (pos + 1) (some n) cur seen).2.2) from rfl, hR] at h
          exact h
        obtain ⟨h1, h2, h3⟩ := triple_eq_some h0
        subst h3
        subst h1
        exact List.Forall₂.cons (lineEq_refl _) (ih _ _ _ _ _ _ _ hR)
    | instr i =>
      cases sl with
      | some n =>
        cases hR : legalizeGo rest (pos + 1) (some n) cur seen with
        | mk r2 q =>
          obtain ⟨ps2, err2⟩ := q
          have h0 : (Entry.instr { i with lineno := .ln n } :: r2, ps2, err2)
              = (es2, ps, some err) := by
            rw [show legalizeGo (Entry.instr i :: rest) pos (some n) cur seen
                  = (Entry.instr { i with lineno := .ln n }
                      :: (legalizeGo rest (pos + 1) (some n) cur seen).1,
                     (legalizeGo rest (pos + 1) (some n) cur seen).2.1,
                     (legalizeGo rest (pos + 1) (some n) cur seen).2.2) from rfl, hR] at h
            exact h
          obtain ⟨h1, h2, h3⟩ := triple_eq_some h0
          subst h3
          subst h1
          exact List.Forall₂.cons (by simp [lineEq]) (ih _ _ _ _ _ _ _ hR)
      | none =>
        obtain ⟨nm, a0, li, lo⟩ := i
        cases li with
        | unset =>
          cases hR : legalizeGo rest (pos + 1) none cur seen with
          | mk r2 q =>
            obtain ⟨ps2, err2⟩ := q
            have h0 : (Entry.instr ⟨nm, a0, .ln cur, lo⟩ :: r2, ps2, err2)
                = (es2, ps, some err) := by
              rw [show legalizeGo (Entry.instr ⟨nm, a0, .unset, lo⟩ :: rest) pos none cur seen
                    = (Entry.instr ⟨nm, a0, .ln cur, lo⟩
                        :: (legalizeGo rest (pos + 1) none cur seen).1,
                       (legalizeGo rest (pos + 1) none cur seen).2.1,
                       (legalizeGo rest (pos + 1) none cur seen).2.2) from rfl, hR] at h
              exact h
            obtain ⟨h1, h2, h3⟩ := triple_eq_some h0
            subst h3
            subst h1
            exact List.Forall₂.cons (by simp [lineEq]) (ih _ _ _ _ _ _ _ hR)
        | ln m =>
          cases hR : legalizeGo rest (pos + 1) none m seen with
          | mk r2 q =>
            obtain ⟨ps2, err2⟩ := q
            have h0 : (Entry.instr ⟨nm, a0, .ln m, lo⟩ :: r2, ps2, err2)
                = (es2, ps, some err) := by
              rw [show legalizeGo (Entry.instr ⟨nm, a0, .ln m, lo⟩ :: rest) pos none cur seen
                    = (Entry.instr ⟨nm, a0, .ln m, lo⟩
                        :: (legalizeGo rest (pos + 1) none m seen).1,
                       (legalizeGo rest (pos + 1) none m seen).2.1,
                       (legalizeGo rest (pos + 1) none m seen).2.2) from rfl, hR] at h
              exact h
            obtain ⟨h1, h2, h3⟩ := triple_eq_some h0
            subst h3
            subst h1
            exact List.Forall₂.cons (lineEq_refl _) (ih _ _ _ _ _ _ _ hR)

theorem lineEq_setLineno (a b : Entry) (h : lineEq a b = true) :
    isSetLineno a = isSetLineno b ∧ (isSetLineno a = true → a = b) := by
  cases a <;> cases b <;> simp_all [lineEq, isSetLineno]

/-- Entries equal up to instruction line numbers have the same line markers. -/
theorem filter_sl_eq_of_lineEq (l l2 : List Entry)
    (h : List.Forall₂ (fun a b => lineEq a b = true) l l2) :
    l.filter (fun e => isSetLineno e) = l2.filter (fun e => isSetLineno e) := by
  induction h with
  | nil => rfl
  | @cons a b l1 l3 hab htl ih =>
    obtain ⟨hsl, heq⟩ := lineEq_setLineno a b hab
    rw [List.filter_cons, List.filter_cons, ← hsl]
    by_cases hA : isSetLineno a = true
    · have hb : a = b := heq hA
      subst hb
      simp [hA, ih]
    · simp only [Bool.not_eq_true] at hA
      simp [hA, ih]

/-- A container whose traversal fails after its first instruction's line
number has already been rewritten in place. -/
def c9Input : Bytecode :=
  { meta := defaultMeta, argnames := [],
    entries := [.instr { name := "A", arg := .noArg, lineno := .unset, location := none },
                .tryBegin 0, .tryBegin 1] }

/-- The state `legalize` leaves `c9Input` in when it raises: the first
instruction's line number was assigned before the nesting violation. -/
def c9Mutated : Bytecode :=
  { meta := defaultMeta, argnames := [],
    entries := [.instr { name := "A", arg := .noArg, lineno := .ln 1, location := none },
                .tryBegin 0, .tryBegin 1] }

/-- C9 counterexample: a failing `legalize` is not all-or-nothing — it leaves
the container mutated (an instruction's line number rewritten), contrary to
the claim that the container is left exactly as it was. -/
theorem c9_counterexample :
    legalize c9Input = .error (.nestingError 2, c9Mutated) ∧ c9Mutated ≠ c9Input := by
  decide

/-- C9 (amended): if `legalize` raises, the exception propagates before the
marker-deletion loop runs, so no `LineMarker` entry has been deleted, the
metadata and argument names are untouched, and the entry sequence keeps its
length — but instruction line numbers rewritten before the failure point
persist (each entry equals the original up to an instruction line number). -/
theorem c9_error_leaves_markers (bc : Bytecode) (err : IterErr) (bc2 : Bytecode)
    (h : legalize bc = .error (err, bc2)) :
    bc2.meta = bc.meta
    ∧ bc2.argnames = bc.argnames
    ∧ bc.entries.length = bc2.entries.length
    ∧ bc.entries.filter (fun e => isSetLineno e)
        = bc2.entries.filter (fun e => isSetLineno e)
    ∧ List.Forall₂ (fun a b => lineEq a b = true) bc.entries bc2.entries := by
  cases hgo : legalizeGo bc.entries 0 none bc.meta.first_lineno false with
  | mk es2 q =>
    obtain ⟨ps2, err2⟩ := q
    cases err2 with
    | none =>
      exfalso
      unfold legalize at h
      rw [hgo] at h
      cases h
    | some err3 =>
      have hb : (err3, ({ bc with entries := es2 } : Bytecode)) = (err, bc2) := by
        unfold legalize at h
        rw [hgo] at h
        injection h with h
      injection hb with hb1 hb2
      subst hb2
      have hfa := legalizeGo_error bc.entries 0 none bc.meta.first_lineno false
        es2 ps2 err3 hgo
      exact ⟨rfl, rfl, hfa.length_eq,
        filter_sl_eq_of_lineEq bc.entries es2 hfa, hfa⟩

/-- C9 witness: the amended theorem at the concrete failing container. -/
theorem c9_witness :
    c9Mutated.meta = c9Input.meta
    ∧ c9Mutated.argnames = c9Input.argnames
    ∧ c9Input.entries.length = c9Mutated.entries.length
    ∧ c9Input.entries.filter (fun e => isSetLineno e)
        = c9Mutated.entries.filter (fun e => isSetLineno e)
    ∧ List.Forall₂ (fun a b => lineEq a b = true) c9Input.entries c9Mutated.entries :=
  c9_error_leaves_markers c9Input (.nestingError 2) c9Mutated (by decide)

/-! Copy semantics in the aliasing refinement (C7). -/

theorem getD_set_ne {α : Type} (l : List α) (i j : Nat) (x d : α)
    (h : i ≠ j) : (l.set i x).getD j d = l.getD j d := by
  induction l generalizing i j with
  | nil => rfl
  | cons a t ih =>
    cases i with
    | zero =>
      cases j with
      | zero => exact absurd rfl h
      | succ m => rfl
    | succ n =>
      cases j with
      | zero => rfl
      | succ m =>
        have h2 : n ≠ m := fun hc => h (by rw [hc])
        exact ih n m h2

theorem getD_append_lt {α : Type} (l l2 : List α) (i : Nat) (d : α)
    (h : i < l.length) : (l ++ l2).getD i d = l.getD i d := by
  induction l generalizing i with
  | nil => cases h
  | cons a t ih =>
    cases i with
    | zero => rfl
    | succ n => exact ih n (Nat.lt_of_succ_lt_succ h)

theorem getD_append_self {α : Type} (l : List α) (x : α) (t : List α) (d : α) :
    (l ++ x :: t).getD l.length d = x := by
  induction l with
  | nil => rfl
  | cons a r ih => exact ih

/-- C7 (amended): copying shares structure.  The copy's view of the world
equals the original's (so the two compare equal whenever the validated
flattening succeeds),
its entry list holds the same instruction references and its `argnames` is the
very same list, while its cell-variable and free-variable lists are fresh
cells whose mutation leaves the original's view unchanged; the copy itself
leaves the original's view untouched. -/
theorem c7_copy_sharing (strs : List (List String)) (instrs : List Instr)
    (b : SBytecode) (strs2 : List (List String)) (b2 : SBytecode)
    (hcv : b.cellvarsRef < strs.length)
    (hfv : b.freevarsRef < strs.length)
    (han : b.argnamesRef < strs.length)
    (hc : copyS strs b = .ok (strs2, b2)) :
    viewS instrs strs2 b2 = viewS instrs strs b
    ∧ b2.entries = b.entries
    ∧ b2.argnamesRef = b.argnamesRef
    ∧ b2.cellvarsRef ≠ b.cellvarsRef
    ∧ b2.freevarsRef ≠ b.freevarsRef
    ∧ viewS instrs strs2 b = viewS instrs strs b
    ∧ (∀ l, viewS instrs (strs2.set b2.cellvarsRef l) b = viewS instrs strs2 b)
    ∧ (∀ l, viewS instrs (strs2.set b2.freevarsRef l) b = viewS instrs strs2 b)
    ∧ (∀ out, flatB (viewS instrs strs b).entries = .ok out →
        bytecodeEq (viewS instrs strs b) (viewS instrs strs2 b2) = .ok true) := by
  cases hchk : checkAllS b.entries with
  | error e =>
    exfalso
    unfold copyS at hc
    rw [hchk] at hc
    cases hc
  | ok u =>
    have hc2 : (strs ++ [strs.getD b.cellvarsRef [], strs.getD b.freevarsRef []],
        ({ scalar := b.scalar,
           cellvarsRef := strs.length,
           freevarsRef := strs.length + 1,
           argnamesRef := b.argnamesRef,
           entries := b.entries } : SBytecode)) = (strs2, b2) := by
      unfold copyS at hc
      rw [hchk] at hc
      injection hc with hc
    injection hc2 with h1 h2
    subst h1
    subst h2
    have e1 : (strs ++ [strs.getD b.cellvarsRef [], strs.getD b.freevarsRef []]).getD
        strs.length [] = strs.getD b.cellvarsRef [] :=
      getD_append_self strs _ _ []
    have e2 : (strs ++ [strs.getD b.cellvarsRef [], strs.getD b.freevarsRef []]).getD
        (strs.length + 1) [] = strs.getD b.freevarsRef [] := by
      rw [show strs ++ [strs.getD b.cellvarsRef [], strs.getD b.freevarsRef []]
            = (strs ++ [strs.getD b.cellvarsRef []])
              ++ [strs.getD b.freevarsRef []] by simp]
      rw [show strs.length + 1 = (strs ++ [strs.getD b.cellvarsRef []]).length by simp]
      exact getD_append_self _ _ [] []
    have e3 : (strs ++ [strs.getD b.cellvarsRef [], strs.getD b.freevarsRef []]).getD
        b.argnamesRef [] = strs.getD b.argnamesRef [] :=
      getD_append_lt strs _ b.argnamesRef [] han
    have e4 : (strs ++ [strs.getD b.cellvarsRef [], strs.getD b.freevarsRef []]).getD
        b.cellvarsRef [] = strs.getD b.cellvarsRef [] :=
      getD_append_lt strs _ b.cellvarsRef [] hcv
    have e5 : (strs ++ [strs.getD b.cellvarsRef [], strs.getD b.freevarsRef []]).getD
        b.freevarsRef [] = strs.getD b.freevarsRef [] :=
      getD_append_lt strs _ b.freevarsRef [] hfv
    have n1 : strs.length ≠ b.cellvarsRef := by omega
    have n2 : strs.length ≠ b.freevarsRef := by omega
    have n3 : strs.length ≠ b.argnamesRef := by omega
    have n4 : strs.length + 1 ≠ b.cellvarsRef := by omega
    have n5 : strs.length + 1 ≠ b.freevarsRef := by omega
    have n6 : strs.length + 1 ≠ b.argnamesRef := by omega
    refine ⟨?_, rfl, rfl, ?_, ?_, ?_, ?_, ?_, ?_⟩
    · show ({ meta := { toScalarMeta := b.scalar, cellvars := _, freevars := _ },
              argnames := _, entries := _ } : Bytecode) = _
      rw [e1, e2, e3]
      rfl
    · show strs.length ≠ b.cellvarsRef
      omega
    · show strs.length + 1 ≠ b.freevarsRef
      omega
    · show ({ meta := { toScalarMeta := b.scalar, cellvars := _, freevars := _ },
              argnames := _, entries := _ } : Bytecode) = _
      rw [e4, e5, e3]
      rfl
    · intro l
      show viewS instrs
          ((strs ++ [strs.getD b.cellvarsRef [], strs.getD b.freevarsRef []]).set
            strs.length l) b
        = viewS instrs
            (strs ++ [strs.getD b.cellvarsRef [], strs.getD b.freevarsRef []]) b
      unfold viewS
      rw [getD_set_ne _ _ _ _ _ n1, getD_set_ne _ _ _ _ _ n2,
          getD_set_ne _ _ _ _ _ n3]
    · intro l
      show viewS instrs
          ((strs ++ [strs.getD b.cellvarsRef [], strs.getD b.freevarsRef []]).set
            (strs.length + 1) l) b
        = viewS instrs
            (strs ++ [strs.getD b.cellvarsRef [], strs.getD b.freevarsRef []]) b
      unfold viewS
      rw [getD_set_ne _ _ _ _ _ n4, getD_set_ne _ _ _ _ _ n5,
          getD_set_ne _ _ _ _ _ n6]
    · intro out hout
      have hsame : (viewS instrs
          (strs ++ [strs.getD b.cellvarsRef [], strs.getD b.freevarsRef []])
          ({ scalar := b.scalar,
             cellvarsRef := strs.length,
             freevarsRef := strs.length + 1,
             argnamesRef := b.argnamesRef,
             entries := b.entries } : SBytecode)).entries
          = (viewS instrs strs b).entries := rfl
      unfold bytecodeEq
      rw [hsame, hout]
      show Except.ok (out == out) = Except.ok true
      simp

/-- A one-instruction store: the mutable instruction object at reference 0. -/
def c7Instrs : List Instr :=
  [{ name := "LOAD_CONST", arg := .intArg 0, lineno := .unset, location := none }]

/-- The string-list store: cell 0 the cellvars, cell 1 the freevars, cell 2
the argnames list. -/
def c7Strs : List (List String) := [[], [], ["a"]]

/-- A container holding the instruction at reference 0 and the metadata lists
at cells 0, 1 and 2. -/
def c7B : SBytecode :=
  { scalar := defaultMeta.toScalarMeta, cellvarsRef := 0, freevarsRef := 1,
    argnamesRef := 2, entries := [.instr 0] }

/-- The string store after `c7B.copy()` allocated fresh cellvar/freevar
cells. -/
def c7Strs2 : List (List String) := [[], [], ["a"], [], []]

/-- The copy: same entry references, same argnames cell, fresh cellvar and
freevar cells. -/
def c7B2 : SBytecode :=
  { scalar := defaultMeta.toScalarMeta, cellvarsRef := 3, freevarsRef := 4,
    argnamesRef := 2, entries := [.instr 0] }

/-- C7 counterexample: the copy is not independent of the original.  After
copying, rewriting the line number of the instruction object held inside the
copy (`c7B2.entries = [.instr 0]`) changes what the original container reads,
and appending to the copy's argnames list (the shared cell 2) changes the
original's argnames — contrary to the claim that mutating an instruction or a
metadata value of C2 leaves C unchanged. -/
theorem c7_counterexample :
    copyS c7Strs c7B = .ok (c7Strs2, c7B2)
    ∧ (viewS (setInstrLineno c7Instrs 0 (.ln 7)) c7Strs2 c7B).entries
        ≠ (viewS c7Instrs c7Strs2 c7B).entries
    ∧ (viewS c7Instrs (c7Strs2.set c7B2.argnamesRef ["a", "b"]) c7B).argnames
        ≠ (viewS c7Instrs c7Strs2 c7B).argnames := by
  decide

/-- C7 witness: the sharing theorem at the concrete store — the copy's view
equals the original's and they compare equal, entries and argnames are shared,
and mutating the copy's fresh cellvars cell leaves the original's view
unchanged. -/
theorem c7_witness :
    viewS c7Instrs c7Strs2 c7B2 = viewS c7Instrs c7Strs c7B
    ∧ c7B2.entries = c7B.entries
    ∧ c7B2.argnamesRef = c7B.argnamesRef
    ∧ viewS c7Instrs (c7Strs2.set c7B2.cellvarsRef ["z"]) c7B
        = viewS c7Instrs c7Strs2 c7B
    ∧ bytecodeEq (viewS c7Instrs c7Strs c7B) (viewS c7Instrs c7Strs2 c7B2)
        = .ok true :=
  have T := c7_copy_sharing c7Strs c7Instrs c7B c7Strs2 c7B2 (by decide)
    (by decide) (by decide) (by decide)
  ⟨T.1, T.2.1, T.2.2.1, T.2.2.2.2.2.2.1 ["z"],
   T.2.2.2.2.2.2.2.2
     [.entry (.instr { name := "LOAD_CONST", arg := .intArg 0,
                       lineno := .unset, location := none })]
     (by decide)⟩
